import Mathlib

/-!
Verification development for the ps-hkey crate: a shallow embedding of the
Hkey algebra (variants, textual and compact codecs, parser), the long-blob
tree (`LongHkeyExpanded` build / resolve / update), and the `Store::put`
size-triage pipeline, together with theorems settling the specification
claims against this embedding.

Modelling conventions:
* A byte is a `Nat` (Rust `u8` values are `< 256`; where the source performs
  `u8` arithmetic the embedding masks with `% 256` or bitwise ops on the
  concrete values involved).
* A byte string (`&[u8]`, `String`) is a `List Nat` of character codes.
* Fallible code returns `RunResult`: `ok` mirrors `Ok`, `err` mirrors
  `Err(PsHkeyError)`, `crash` mirrors a Rust panic (out-of-bounds slice or
  arithmetic overflow), and `diverge` is returned when the explicit fuel of
  a recursive function is exhausted, so that unbounded recursion in the
  source is visible as `diverge` at every fuel.
* The external collaborator crates (`ps_hash`, `ps_cypher`/`ps_datachunk`,
  `ps_base64`) are not under the verified sources; they are modelled from
  the specification, see the `Modelled from the spec:` doc comments.
-/

namespace PsHkey

/-- A byte string: `&[u8]` / `String` contents as a list of byte values. -/
abbrev Str := List Nat

/-- Error kinds of `PsHkeyError` (src/error.rs), flattened: the wrapped
external errors (`HashError`, `ParseIntError`, `Utf8Error`, data-chunk /
cipher errors, store `NotFound`) are single constructors here. -/
inductive Err where
  | hashError
  | parseIntError
  | utf8Error
  | cipherError
  | formatError
  | rangeError (size : Nat)
  | storageError
  | encryptedIntoListRefError
  | unreachableCodeReached
  | notFound
  deriving DecidableEq, Repr

/-- Outcome of running embedded code: success, a returned error, a Rust
panic, or fuel exhaustion (the source recursion did not terminate within
the given fuel). -/
inductive RunResult (α : Type) where
  | ok (a : α)
  | err (e : Err)
  | crash
  | diverge
  deriving Repr, DecidableEq

namespace RunResult

/-- Monadic bind: propagate `err` / `crash` / `diverge`. -/
def bind {α β : Type} : RunResult α → (α → RunResult β) → RunResult β
  | ok a, f => f a
  | err e, _ => err e
  | crash, _ => crash
  | diverge, _ => diverge

end RunResult

instance : Monad RunResult where
  pure := RunResult.ok
  bind := RunResult.bind

/-- `RunResult` is a lawful monad (bind of a pure value reduces). -/
theorem RunResult.bind_ok {α β : Type} (a : α) (f : α → RunResult β) :
    RunResult.bind (RunResult.ok a) f = f a := rfl

/-! ## Character codes used by the textual codec -/

/-- `'B'` -/
def chB : Nat := 66
/-- `'D'` -/
def chD : Nat := 68
/-- `'E'` -/
def chE : Nat := 69
/-- `'L'` -/
def chL : Nat := 76
/-- `'['` -/
def chLBracket : Nat := 91
/-- `']'` -/
def chRBracket : Nat := 93
/-- `'{'` -/
def chLBrace : Nat := 123
/-- `'}'` -/
def chRBrace : Nat := 125
/-- `','` -/
def chComma : Nat := 44
/-- `';'` -/
def chSemi : Nat := 59
/-- `':'` -/
def chColon : Nat := 58
/-- `'-'` -/
def chDash : Nat := 45

/-! ## List-splitting helpers mirroring Rust slice/str operations -/

/-- Rust `slice::split` / `str::split` on a single separator byte: splits
into the (possibly empty) pieces between separators; the empty input gives
one empty piece, like Rust. -/
def splitOn (sep : Nat) (s : Str) : List Str :=
  s.foldr
    (fun c acc =>
      if c = sep then [] :: acc
      else
        match acc with
        | h :: t => (c :: h) :: t
        | [] => [[c]])
    [[]]

/-- Rust `str::split_once`: split at the first occurrence of `sep`. -/
def splitOnce (sep : Nat) : Str → Option (Str × Str)
  | [] => none
  | c :: t =>
    if c = sep then some ([], t)
    else
      match splitOnce sep t with
      | some (a, b) => some (c :: a, b)
      | none => none

/-- Rust slice indexing `&l[a..b]`: panics (`none`) unless `a ≤ b ≤ len`. -/
def sliceGet (l : Str) (a b : Nat) : Option Str :=
  if a ≤ b ∧ b ≤ l.length then some ((l.drop a).take (b - a)) else none

/-- Rust `slice::chunks k` (k > 0 in all uses), with explicit fuel to keep
the definition structural; `chunkList` supplies enough fuel. -/
def chunkListF (k : Nat) : Nat → List Nat → List (List Nat)
  | 0, _ => []
  | fuel + 1, l => if l = [] then [] else l.take k :: chunkListF k fuel (l.drop k)

/-- Rust `slice::chunks k`. -/
def chunkList (k : Nat) (l : List Nat) : List (List Nat) :=
  chunkListF k (l.length + 1) l

/-! ## Decimal digits (Rust `Display` for integers and `str::parse::<usize>`) -/

/-- Decimal digits of `n`, most significant first, as ASCII codes;
fueled to stay structural (`natDigits` supplies enough fuel). -/
def natDigitsF : Nat → Nat → Str
  | 0, _ => []
  | fuel + 1, n => if n < 10 then [48 + n] else natDigitsF fuel (n / 10) ++ [48 + n % 10]

/-- Decimal ASCII representation of `n` (Rust `format!("{n}")`). -/
def natDigits (n : Nat) : Str := natDigitsF (n + 1) n

/-- Rust `str::parse::<usize>()` restricted to plain digit strings: errors
(`none`) on the empty string or any non-digit byte. -/
def parseNat (s : Str) : Option Nat :=
  if s = [] then none
  else if s.all (fun c => 48 ≤ c ∧ c ≤ 57) then
    some (s.foldl (fun acc c => acc * 10 + (c - 48)) 0)
  else none

/-! ## Modelled external collaborators -/

/-- Modelled from the spec: `str::from_utf8` validity of a model byte
string. ASCII bytes are valid; codes `128..1000` stand for ill-formed
UTF-8 bytes; codes `≥ 1000` stand for well-formed non-ASCII scalar values
(the model hash alphabet lives there). -/
def isUtf8 (s : Str) : Bool := s.all (fun c => c < 128 || 1000 ≤ c)

/-- Modelled from the spec: the digest function of the external `ps_hash`
crate. A digest is an abstract identifier (`Nat`); hashing is deterministic
and injective on byte strings (content addressing assumes no collisions):
the digest of `d` is the base-257 value of its bytes, offset to make the
encoding prefix-free. -/
def hashOfData (d : Str) : Nat :=
  d.foldl (fun acc b => acc * 257 + b % 256 + 1) 1

/-- Modelled from the spec: `HASH_SIZE`, the text width of a digest
(external constant of `ps_hash`; 64 in the shipped crate, as witnessed by
the 129-byte `"E" + hash + key` strings in the crate's tests). -/
def HASH_SIZE : Nat := 64

/-- Modelled from the spec: `HASH_SIZE_COMPACT`, the binary width of a
digest (external constant of `ps_hash`). -/
def HASH_SIZE_COMPACT : Nat := 48

/-- Modelled from the spec: the canonical text encoding of a digest `h`:
`HASH_SIZE` characters over the hash alphabet (modelled as the codes
`≥ 1000`, disjoint from every ASCII delimiter of the Hkey grammar), the
first carrying the digest value. -/
def textOfHash (h : Nat) : Str := (1000 + h) :: List.replicate (HASH_SIZE - 1) 1000

/-- Modelled from the spec: `Hash::try_from` / `Hash::validate` on text:
accepts exactly the canonical `HASH_SIZE`-character encodings and returns
the digest; everything else (wrong length, bytes outside the hash
alphabet) is a validation error. -/
def parseHashText (s : Str) : Option Nat :=
  match s with
  | c :: t =>
    if 1000 ≤ c ∧ t = List.replicate (HASH_SIZE - 1) 1000 then some (c - 1000) else none
  | [] => none

/-- Modelled from the spec: `Hash::compact()`, the `HASH_SIZE_COMPACT`-byte
binary encoding of a digest. Byte 0 never uses its lowest bit (the compact
codec reserves it for the `Encrypted`/`ListRef` tag); the model stores the
digest value in byte 1. -/
def compactOfHash (h : Nat) : Str := 0 :: h :: List.replicate (HASH_SIZE_COMPACT - 2) 0

/-- Modelled from the spec: `Hash::validate_bin`, which extracts the tag
bit before validating: accepts `HASH_SIZE_COMPACT` bytes whose byte 0 is
`0` or `1` (the tag bit is ignored) and recovers the digest. -/
def validateBin (b : Str) : Option Nat :=
  match b with
  | b0 :: h :: t =>
    if b0 ≤ 1 ∧ t = List.replicate (HASH_SIZE_COMPACT - 2) 0 then some h else none
  | _ => none

/-- Modelled from the spec: the ciphertext marker of the external cipher;
`validate` tests for it. -/
def CTAG : Nat := 7777

/-- Modelled from the spec: convergent encryption: `encrypt(p)` yields the
deterministic ciphertext (the tagged plaintext in the model) whose content
hash addresses it; the key hash is derived from the plaintext. -/
def encryptData (p : Str) : Str := CTAG :: p

/-- Modelled from the spec: the key hash derived from a plaintext by the
convergent cipher. -/
def keyOf (p : Str) : Nat := hashOfData p

/-- Modelled from the spec: `decrypt(ciphertext, key_hash) → plaintext`:
inverts `encryptData`; non-ciphertexts fail. (The spec fixes decryption
only on encryption's outputs; the model accepts any tagged byte string, so
a byzantine store can hand the resolver well-formed ciphertext of its
choosing, as in the spec's pathological-input note.) -/
def decryptData (ct : Str) (_key : Nat) : RunResult Str :=
  match ct with
  | c :: p => if c = CTAG then .ok p else .err .cipherError
  | [] => .err .cipherError

/-- Modelled from the spec: `ps_cypher::validate`, the opaque predicate
testing whether bytes look like a well-formed ciphertext. -/
def cypherValidate (d : Str) : Bool := d.head? = some CTAG

/-- Modelled from the spec: the `ps_base64` alphabet (base64url per the
`'-'`/`'_'` spellings in the crate's tests): sextet value to ASCII code. -/
def b64Char (v : Nat) : Nat :=
  if v < 26 then 65 + v
  else if v < 52 then 97 + (v - 26)
  else if v < 62 then 48 + (v - 52)
  else if v = 62 then 45
  else 95

/-- Modelled from the spec: inverse alphabet lookup; `none` for bytes
outside the alphabet (the decoder skips them). -/
def b64Value (c : Nat) : Option Nat :=
  if 65 ≤ c ∧ c ≤ 90 then some (c - 65)
  else if 97 ≤ c ∧ c ≤ 122 then some (c - 97 + 26)
  else if 48 ≤ c ∧ c ≤ 57 then some (c - 48 + 52)
  else if c = 45 then some 62
  else if c = 95 then some 63
  else none

/-- Modelled from the spec: `ps_base64::encode`, unpadded (the crate's
canonicalization test truncates re-encodings to the original length,
so the canonical spelling carries no `'='`). Bytes are taken mod 256. -/
def b64encode : List Nat → Str
  | [] => []
  | [a] =>
    let a := a % 256
    [b64Char (a / 4), b64Char (a % 4 * 16)]
  | [a, b] =>
    let a := a % 256
    let b := b % 256
    [b64Char (a / 4), b64Char (a % 4 * 16 + b / 16), b64Char (b % 16 * 4)]
  | a :: b :: c :: t =>
    let a := a % 256
    let b := b % 256
    let c := c % 256
    b64Char (a / 4) :: b64Char (a % 4 * 16 + b / 16) :: b64Char (b % 16 * 4 + c / 64) ::
      b64Char (c % 64) :: b64encode t

/-- Reassemble bytes from a list of sextets (4 sextets to 3 bytes; a
trailing lone sextet carries fewer than 8 bits and is dropped). -/
def b64unsextets : List Nat → List Nat
  | s1 :: s2 :: s3 :: s4 :: t =>
    (s1 * 4 + s2 / 16) :: (s2 % 16 * 16 + s3 / 4) :: (s3 % 4 * 64 + s4) :: b64unsextets t
  | [s1, s2] => [s1 * 4 + s2 / 16]
  | [s1, s2, s3] => [s1 * 4 + s2 / 16, s2 % 16 * 16 + s3 / 4]
  | _ => []

/-- Modelled from the spec: `ps_base64::decode`: gather the sextet values
of the alphabet bytes (others are skipped) and repack them into bytes.
Total on arbitrary input, and a left inverse of `b64encode`. -/
def b64decode (s : Str) : List Nat := b64unsextets (s.filterMap b64Value)

/-! ## Constants (src/constants.rs and src/long/long_hkey_expanded/constants.rs) -/

/-- `DOUBLE_HASH_SIZE = 2 * HASH_SIZE` -/
def DOUBLE_HASH_SIZE : Nat := HASH_SIZE * 2

/-- `HASH_SIZE_PREFIXED = HASH_SIZE + 1` -/
def HASH_SIZE_PREFIXED : Nat := HASH_SIZE + 1

/-- `DOUBLE_HASH_SIZE_PREFIXED = DOUBLE_HASH_SIZE + 1` -/
def DOUBLE_HASH_SIZE_PREFIXED : Nat := DOUBLE_HASH_SIZE + 1

/-- `DOUBLE_HASH_SIZE_COMPACT = 2 * HASH_SIZE_COMPACT` -/
def DOUBLE_HASH_SIZE_COMPACT : Nat := 2 * HASH_SIZE_COMPACT

/-- `MAX_SIZE_RAW = HASH_SIZE_COMPACT - 1` -/
def MAX_SIZE_RAW : Nat := HASH_SIZE_COMPACT - 1

/-- `MAX_SIZE_BASE64 = MAX_SIZE_RAW / 3 * 4` -/
def MAX_SIZE_BASE64 : Nat := MAX_SIZE_RAW / 3 * 4

/-- `MAX_DECRYPTED_SIZE = 4096` -/
def MAX_DECRYPTED_SIZE : Nat := 4096

/-- `MAX_ENCRYPTED_SIZE = 4629` -/
def MAX_ENCRYPTED_SIZE : Nat := 4629

/-- `LHKEY_SEGMENT_MAX_LENGTH_LOG2 = 12` -/
def LHKEY_SEGMENT_MAX_LENGTH_LOG2 : Nat := 12

/-- `LHKEY_SEGMENT_MAX_LENGTH = 1 << 12 = 4096` -/
def LHKEY_SEGMENT_MAX_LENGTH : Nat := 4096

/-- `LHKEY_PART_COUNT_LOG2 = 4` -/
def LHKEY_PART_COUNT_LOG2 : Nat := 4

/-- `LHKEY_PART_COUNT = 16` -/
def LHKEY_PART_COUNT : Nat := 16

/-- `LHKEY_LEVEL_MAX_LENGTH_LOG2 = 16` -/
def LHKEY_LEVEL_MAX_LENGTH_LOG2 : Nat := 16

/-- `LHKEY_LEVEL_MAX_LENGTH = 1 << 16 = 65536` -/
def LHKEY_LEVEL_MAX_LENGTH : Nat := 65536

/-- `usize::BITS` on the 64-bit targets the crate ships on. -/
def USIZE_BITS : Nat := 64

/-! ## The Hkey variant type (src/lib.rs `enum Hkey`) -/

/-- The eight Hkey variants. `lhe` carries the fields of a
`LongHkeyExpanded` node: depth, logical size, and the ordered
`(range.start, range.end, child)` parts; `longHkey` carries the stored
`LongHkey` reference's `(hash, key)` pair. -/
inductive Hkey where
  | raw (data : Str)
  | base64 (text : Str)
  | direct (hash : Nat)
  | encrypted (hash key : Nat)
  | listRef (hash key : Nat)
  | list (items : List Hkey)
  | longHkey (hash key : Nat)
  | lhe (depth size : Nat) (parts : List (Nat × Nat × Hkey))

/-- One `(Range, Hkey)` part of a `LongHkeyExpanded`. -/
abbrev Part := Nat × Nat × Hkey

/-! ## Textual formatting (`impl From<&Hkey> for String`, `Display for LongHkeyExpanded`) -/

mutual

/-- `String::from(&Hkey)` (src/lib.rs): the textual form of a variant. -/
def format : Hkey → Str
  | .raw d => chB :: b64encode d
  | .base64 t => chB :: t
  | .direct h => textOfHash h
  | .encrypted h k => chE :: (textOfHash h ++ textOfHash k)
  | .listRef h k => chL :: (textOfHash h ++ textOfHash k)
  | .list items => formatList items
  | .longHkey h k => chL :: (textOfHash h ++ textOfHash k)
  | .lhe depth size parts =>
    chLBrace :: (natDigits depth ++ chSemi :: natDigits size ++ chSemi ::
      formatParts true parts ++ [chRBrace])

/-- `Hkey::format_list`: `"[]"` for the empty list, otherwise the
comma-separated formats between brackets. -/
def formatList : List Hkey → Str
  | [] => [chLBracket, chRBracket]
  | first :: rest =>
    chLBracket :: (format first ++ formatTail rest ++ [chRBracket])

/-- The `push(','); push_str(...)` accumulation loop of `format_list`. -/
def formatTail : List Hkey → Str
  | [] => []
  | h :: t => chComma :: format h ++ formatTail t

/-- The part-printing loop of `Display for LongHkeyExpanded`: each entry is
`start "-" (end - 1) ":" child`, comma-separated (no trailing comma). -/
def formatParts : Bool → List Part → Str
  | _, [] => []
  | isFirst, (s, e, h) :: t =>
    (if isFirst then [] else [chComma]) ++
      natDigits s ++ chDash :: natDigits (e - 1) ++ chColon :: format h ++
      formatParts false t

end

/-! ## Parsing (src/methods/try_parse.rs, src/methods/parse.rs, src/lib.rs
helpers, src/long/long_hkey/mod.rs `expand_from_lhkey_str`).

The mutually recursive parsers take explicit fuel (decremented on every
mutual call) to stay structurally recursive; the fuel-free wrappers below
supply more fuel than any input can consume, matching the always
terminating Rust originals. -/

/-- `Option::ok_or`: missing value becomes the given error. -/
def optErr {α : Type} (o : Option α) (e : Err) : RunResult α :=
  match o with
  | some a => .ok a
  | none => .err e

/-- `Hkey::from_base64_slice` (src/lib.rs): UTF-8 text becomes `Base64`
verbatim, other byte strings become `Raw`. -/
def fromBase64Slice (value : Str) : Hkey :=
  if isUtf8 value then .base64 value else .raw value

/-- `Hkey::try_as_direct` (src/lib.rs): validate the bytes as a digest. -/
def tryAsDirect (hash : Str) : RunResult Hkey :=
  match parseHashText hash with
  | some h => .ok (.direct h)
  | none => .err .hashError

/-- `Hkey::try_parse_encrypted` (src/lib.rs): `split_at(HASH_SIZE)`, then
validate both halves (the Rust `split_at` panics if the input is shorter
than `HASH_SIZE`). -/
def tryParseEncrypted (hashkey : Str) : RunResult (Nat × Nat) :=
  if hashkey.length < HASH_SIZE then .crash
  else
    match parseHashText (hashkey.take HASH_SIZE), parseHashText (hashkey.drop HASH_SIZE) with
    | some h, some k => .ok (h, k)
    | _, _ => .err .hashError

/-- `Hkey::try_as_encrypted` (src/lib.rs). -/
def tryAsEncrypted (hashkey : Str) : RunResult Hkey := do
  let (h, k) ← tryParseEncrypted hashkey
  pure (.encrypted h k)

/-- `Hkey::try_as_list_ref` (src/lib.rs). -/
def tryAsListRef (hashkey : Str) : RunResult Hkey := do
  let (h, k) ← tryParseEncrypted hashkey
  pure (.listRef h k)

mutual

/-- `Hkey::try_parse` (src/methods/try_parse.rs): dispatch on the first
byte and total length, in the arm order of the source `match`. -/
def tryParseF : Nat → Str → RunResult Hkey
  | 0, _ => .diverge
  | n + 1, bytes =>
    if bytes = [] then .ok (.base64 [])
    else if bytes.length = HASH_SIZE then tryAsDirect bytes
    else if bytes.length = DOUBLE_HASH_SIZE then tryAsEncrypted bytes
    else if bytes.headI = chD ∧ bytes.length = HASH_SIZE_PREFIXED then
      tryAsDirect (bytes.drop 1)
    else if bytes.headI = chE ∧ bytes.length = DOUBLE_HASH_SIZE_PREFIXED then
      tryAsEncrypted (bytes.drop 1)
    else if bytes.headI = chL ∧ bytes.length = DOUBLE_HASH_SIZE_PREFIXED then
      tryAsListRef (bytes.drop 1)
    else if bytes.headI = chLBracket then tryAsListF n bytes
    else if bytes.headI = chLBrace then tryAsLongF n bytes
    else .ok (fromBase64Slice bytes)

/-- `Hkey::parse` (src/methods/parse.rs): `try_parse`, falling back to
`from_base64_slice` on any returned error (panics propagate). -/
def parseF : Nat → Str → RunResult Hkey
  | 0, _ => .diverge
  | n + 1, bytes =>
    match tryParseF n bytes with
    | .ok hkey => .ok hkey
    | .err _ => .ok (fromBase64Slice bytes)
    | .crash => .crash
    | .diverge => .diverge

/-- `Hkey::try_as_list` (src/lib.rs): take the content between the outer
bytes (the Rust slice `&list[1..last_index]` is computed before the
bracket check and panics when the input is a lone `'['`), split on `','`,
and parse every piece. -/
def tryAsListF : Nat → Str → RunResult Hkey
  | 0, _ => .diverge
  | n + 1, listBytes =>
    match listBytes with
    | [] => .err .formatError
    | firstByte :: _ =>
      let lastIndex := listBytes.length - 1
      let lastByte := listBytes.getLastI
      match sliceGet listBytes 1 lastIndex with
      | none => .crash
      | some content =>
        if firstByte ≠ chLBracket ∨ lastByte ≠ chRBracket then .err .formatError
        else do
          let items ← parsePiecesF n (splitOn chComma content)
          pure (.list items)

/-- The `parts.map(Self::parse).collect()` loop of `try_as_list`. -/
def parsePiecesF : Nat → List Str → RunResult (List Hkey)
  | 0, _ => .diverge
  | n + 1, pieces =>
    match pieces with
    | [] => .ok []
    | p :: rest => do
      let h ← parseF n p
      let t ← parsePiecesF n rest
      pure (h :: t)

/-- `Hkey::try_as_long` (src/lib.rs): expand the braced text and wrap the
node. -/
def tryAsLongF : Nat → Str → RunResult Hkey
  | 0, _ => .diverge
  | n + 1, bytes => do
    let (depth, size, parts) ← expandFromLhkeyStrF n bytes
    pure (.lhe depth size parts)

/-- `LongHkey::expand_from_lhkey_str` (src/long/long_hkey/mod.rs): reject
inputs shorter than 6 bytes or without the outer braces, require the
interior to be UTF-8 and split into exactly three `';'` fields, parse
depth and size as integers, then split the third field on `','` into
`start "-" end ":" child` entries (each child parsed with `Hkey::from`,
each range stored as `start..end + 1`). -/
def expandFromLhkeyStrF : Nat → Str → RunResult (Nat × Nat × List Part)
  | 0, _ => .diverge
  | n + 1, expandedData =>
    if expandedData.length < 6 then .err .formatError
    else if expandedData.headI ≠ chLBrace ∨ expandedData.getLastI ≠ chRBrace then
      .err .formatError
    else
      let partsData := (expandedData.drop 1).take (expandedData.length - 2)
      if ¬isUtf8 partsData then .err .utf8Error
      else
        match splitOn chSemi partsData with
        | [depthS, sizeS, entriesS] => do
          let depth ← optErr (parseNat depthS) .parseIntError
          let size ← optErr (parseNat sizeS) .parseIntError
          let parts ← parseEntriesF n (splitOn chComma entriesS)
          pure (depth, size, parts)
        | _ => .err .formatError

/-- The range-entry mapping loop of `expand_from_lhkey_str`. -/
def parseEntriesF : Nat → List Str → RunResult (List Part)
  | 0, _ => .diverge
  | n + 1, entries =>
    match entries with
    | [] => .ok []
    | entry :: rest => do
      let (rangeS, hkeyS) ← optErr (splitOnce chColon entry) .formatError
      let (startS, endS) ← optErr (splitOnce chDash rangeS) .formatError
      let rStart ← optErr (parseNat startS) .parseIntError
      let rEnd ← optErr (parseNat endS) .parseIntError
      let hk ← parseF n hkeyS
      let t ← parseEntriesF n rest
      pure ((rStart, rEnd + 1, hk) :: t)

end

/-- Fuel that no parse of `s` can exhaust (each mutual step consumes one
unit and either shrinks the string or steps down a finite list). -/
def parseFuel (s : Str) : Nat := 4 * s.length + 16

/-- `Hkey::try_parse` (src/methods/try_parse.rs), fuel-free wrapper. -/
def tryParse (s : Str) : RunResult Hkey := tryParseF (parseFuel s) s

/-- `Hkey::parse` (src/methods/parse.rs), fuel-free wrapper; also
`Hkey::from(&[u8])` / `Hkey::from(&str)` (src/lib.rs). -/
def parse (s : Str) : RunResult Hkey := parseF (parseFuel s) s

/-- `LongHkey::expand_from_lhkey_str`, fuel-free wrapper. -/
def expandFromLhkeyStr (s : Str) : RunResult (Nat × Nat × List Part) :=
  expandFromLhkeyStrF (parseFuel s) s

/-- The fields of a `LongHkeyExpanded` node: `(depth, size, parts)`. -/
abbrev LHEc := Nat × Nat × List Part

/-! ## The store model (`Store` contract, reference in-memory backend) -/

/-- The store state: a hash-keyed association list (the in-memory backend's
`HashMap<Hash, OwnedDataChunk>`; insertion shadows, like `HashMap::insert`). -/
abbrev St := List (Nat × Str)

/-- `Store::get`: fetch a stored chunk, `NotFound` if absent. -/
def storeGet (st : St) (h : Nat) : RunResult Str :=
  match st.lookup h with
  | some d => .ok d
  | none => .err .notFound

/-- `Store::put_encrypted`: persist a chunk keyed by its content hash. -/
def putEncrypted (st : St) (chunk : Str) : St := (hashOfData chunk, chunk) :: st

/-! ## Binary codec (src/methods/compact.rs, src/methods/from_compact.rs) -/

/-- `compact_dhash` (src/methods/compact.rs): concatenate the two compact
digests, clear the low bit of byte 0 (`&= 0xFE`), then XOR in the tag. -/
def compactDhash (a b : Nat) (flag : Nat) : Str :=
  match compactOfHash a ++ compactOfHash b with
  | d0 :: rest => (Nat.xor (Nat.land d0 0xFE) flag) :: rest
  | [] => []

/-- `Hkey::from_compact` (src/methods/from_compact.rs): a compact-width
input is a `Direct`, a double-width input splits into two validated halves
with the tag in the low bit of byte 0 (`0` is `Encrypted`, `1` is
`ListRef`), anything else is a literal `Raw`. -/
def fromCompact (bytes : Str) : RunResult Hkey :=
  if bytes.length = HASH_SIZE_COMPACT then
    match validateBin bytes with
    | some h => .ok (.direct h)
    | none => .err .hashError
  else if bytes.length = DOUBLE_HASH_SIZE_COMPACT then
    match validateBin (bytes.take HASH_SIZE_COMPACT),
        validateBin (bytes.drop HASH_SIZE_COMPACT) with
    | some h, some k =>
      if Nat.land bytes.headI 1 = 0 then .ok (.encrypted h k) else .ok (.listRef h k)
    | _, _ => .err .hashError
  else .ok (.raw bytes)

/-! ## Depth and segment sizing (src/long/long_hkey_expanded/methods/update/helpers) -/

/-- Rust `usize::div_ceil` / `u32::div_ceil`. -/
def natCeilDiv (a b : Nat) : Nat := (a + b - 1) / b

/-- `calculate_depth` (helpers/calculate_depth.rs): `min` when `end` fits
in one level, otherwise `min.max(ceil((ilog2(end - 1) + 1 - 16) / 4))`. -/
def calculateDepth (mn : Nat) (e : Nat) : Nat :=
  if e ≤ LHKEY_LEVEL_MAX_LENGTH then mn
  else
    let log2 := Nat.log2 (e - 1) + 1
    let derived := natCeilDiv (log2 - LHKEY_LEVEL_MAX_LENGTH_LOG2) LHKEY_PART_COUNT_LOG2
    max mn derived

/-- `calculate_segment_length_log2` (helpers/calculate_segment_length.rs):
`12 + 4·depth`, saturated at `usize::BITS - 1`. -/
def calculateSegmentLengthLog2 (depth : Nat) : Nat :=
  let log2 := LHKEY_SEGMENT_MAX_LENGTH_LOG2 + depth * LHKEY_PART_COUNT_LOG2
  if log2 ≥ USIZE_BITS then USIZE_BITS - 1 else log2

/-- `calculate_segment_length`: `1 << calculate_segment_length_log2 depth`. -/
def calculateSegmentLength (depth : Nat) : Nat := 2 ^ calculateSegmentLengthLog2 depth

/-! ## LongHkey expansion (src/long/long_hkey/mod.rs) -/

/-- `LongHkey::expand`: fetch the stored chunk, decrypt it with the carried
key, and parse the plaintext as a `LongHkeyExpanded` text. -/
def lhkeyExpand (st : St) (h k : Nat) : RunResult LHEc := do
  let encrypted ← storeGet st h
  let text ← decryptData encrypted k
  expandFromLhkeyStr text

/-- The exact-range part scan of `normalize_segment`: the first part whose
range equals the request and is `LongHkeyExpanded` (reused as is) or
`LongHkey` (expanded through the store, errors propagating); parts with a
matching range but another variant are skipped, like the source's
fall-through `match` arm. -/
def normSegFind (st : St) (rs re : Nat) : List Part → Option (RunResult LHEc)
  | [] => none
  | (s, e, hk) :: t =>
    if s = rs ∧ e = re then
      match hk with
      | .lhe d sz ps => some (.ok (d, sz, ps))
      | .longHkey h k => some (lhkeyExpand st h k)
      | _ => normSegFind st rs re t
    else normSegFind st rs re t

/-! ## The store / resolve / update cluster.

These functions are mutually recursive through the store (`put` recurses
through `from_blob`, resolution recurses through stored references, and
`update` recurses through `normalize_segment`), and recursion through
attacker-controlled store contents need not terminate (see the cyclic
`ListRef` theorem below), so every function takes explicit fuel,
decremented on each mutual call; exhaustion yields `diverge`. -/

mutual

/-- `Hkey::resolve` (src/lib.rs): produce the logical bytes of a variant
against the store. -/
def resolve (fuel : Nat) (st : St) (hk : Hkey) : RunResult Str :=
  match fuel with
  | 0 => .diverge
  | n + 1 =>
    match hk with
    | .raw d => .ok d
    | .base64 t => .ok (b64decode t)
    | .direct h => storeGet st h
    | .encrypted h k => do
      let ct ← storeGet st h
      decryptData ct k
    | .listRef h k => do
      let ct ← storeGet st h
      let text ← decryptData ct k
      let inner ← parse text
      resolve n st inner
    | .list items => resolveListF n st items
    | .longHkey h k => do
      let (_, sz, ps) ← lhkeyExpand st h k
      lhePartsSlice n st ps 0 sz
    | .lhe _ sz ps => lhePartsSlice n st ps 0 sz
termination_by structural fuel

/-- `Hkey::resolve_list` (src/lib.rs): resolve every child and concatenate
in order. -/
def resolveListF (fuel : Nat) (st : St) (items : List Hkey) : RunResult Str :=
  match fuel with
  | 0 => .diverge
  | n + 1 =>
    match items with
    | [] => .ok []
    | h :: t => do
      let a ← resolve n st h
      let b ← resolveListF n st t
      pure (a ++ b)
termination_by structural fuel

/-- `Hkey::resolve_slice` (src/lib.rs): range reads per variant; the
default arm resolves fully and slices, failing with `RangeError` when the
requested range is not contained in the payload. -/
def resolveSlice (fuel : Nat) (st : St) (hk : Hkey) (rs : Nat) (re : Nat) : RunResult Str :=
  match fuel with
  | 0 => .diverge
  | n + 1 =>
    match hk with
    | .list items =>
      if re < rs then .crash
      else resolveListSliceF n st items rs (re - rs) []
    | .listRef h k => do
      let ct ← storeGet st h
      let text ← decryptData ct k
      let inner ← parse text
      resolveSlice n st inner rs re
    | .longHkey h k => do
      let (_, _, ps) ← lhkeyExpand st h k
      lhePartsSlice n st ps rs re
    | .lhe _ _ ps => lhePartsSlice n st ps rs re
    | other => do
      let data ← resolve n st other
      match sliceGet data rs re with
      | some s => pure s
      | none => .err (.rangeError data.length)
termination_by structural fuel

/-- `Hkey::resolve_list_slice` (src/lib.rs), verbatim including its `max`
bookkeeping: `skip = len.max(to_skip)`, `take = (len - skip).max(to_take)`,
slice `data[skip..take]`, then `to_skip -= skip` and `to_take -= take`;
the unsigned subtractions and the slice panic when they underflow or the
bounds are out of order. -/
def resolveListSliceF (fuel : Nat) (st : St) (items : List Hkey) (toSkip : Nat) (toTake : Nat) (buffer : Str) : RunResult Str :=
  match fuel with
  | 0 => .diverge
  | n + 1 =>
    match items with
    | [] => .ok buffer
    | hk :: rest => do
      let data ← resolve n st hk
      let len := data.length
      let skip := max len toSkip
      if toSkip > len then .crash
      else
        let take := max (len - skip) toTake
        match sliceGet data skip take with
        | none => .crash
        | some piece =>
          let buffer := buffer ++ piece
          if toSkip < skip then .crash
          else if toTake < take then .crash
          else
            let toTake' := toTake - take
            if toTake' = 0 then .ok buffer
            else resolveListSliceF n st rest (toSkip - skip) toTake' buffer
termination_by structural fuel

/-- `LongHkeyExpanded::resolve_slice` (src/long/long_hkey_expanded/mod.rs):
keep the parts intersecting the range, delegate the per-part overlap
(shifted to part-local coordinates) to the child's `resolve_slice`, and
concatenate in part order. -/
def lhePartsSlice (fuel : Nat) (st : St) (parts : List Part) (rs : Nat) (re : Nat) : RunResult Str :=
  match fuel with
  | 0 => .diverge
  | n + 1 =>
    match parts with
    | [] => .ok []
    | (ps, pe, hk) :: rest =>
      if pe ≤ rs ∨ ps ≥ re then lhePartsSlice n st rest rs re
      else
        let os := max rs ps - ps
        if min re pe < ps then .crash
        else do
          let piece ← resolveSlice n st hk os (min re pe - ps)
          let t ← lhePartsSlice n st rest rs re
          pure (piece ++ t)
termination_by structural fuel

/-- `Store::put` (src/store/mod.rs): the size-triage pipeline. Inputs up to
`MAX_SIZE_RAW` stay inline as `Raw`; inputs up to `MAX_ENCRYPTED_SIZE` that
validate as ciphertext are stored as-is and referenced as `Direct`; inputs
up to `MAX_DECRYPTED_SIZE` are encrypted and referenced as `Encrypted`;
larger inputs go through `LongHkeyExpanded::from_blob` then `shrink`. -/
def put (fuel : Nat) (st : St) (data : Str) : RunResult (Hkey × St) :=
  match fuel with
  | 0 => .diverge
  | n + 1 =>
    if data.length ≤ MAX_SIZE_RAW then .ok (.raw data, st)
    else if data.length ≤ MAX_ENCRYPTED_SIZE ∧ cypherValidate data then
      .ok (.direct (hashOfData data), putEncrypted st data)
    else if data.length ≤ MAX_DECRYPTED_SIZE then
      let ct := encryptData data
      .ok (.encrypted (hashOfData ct) (keyOf data), putEncrypted st ct)
    else do
      let (node, st') ← fromBlob n st data
      let ((h, k), st'') ← lheStoreF n st' node
      pure (.longHkey h k, st'')
termination_by structural fuel

/-- `LongHkeyExpanded::from_blob` (methods/from_blob.rs): depth from the
blob length; blobs over one level are split into depth-sized segments,
each built recursively and shrunk to a `LongHkey`; smaller blobs are split
into `LHKEY_SEGMENT_MAX_LENGTH` leaves, each stored with `store.put`. -/
def fromBlob (fuel : Nat) (st : St) (data : Str) : RunResult (LHEc × St) :=
  match fuel with
  | 0 => .diverge
  | n + 1 =>
    let depth := calculateDepth 0 data.length
    if data.length > LHKEY_LEVEL_MAX_LENGTH then
      let seg := calculateSegmentLength depth
      (fromBlobBigLoop n st seg 0 (chunkList seg data)).bind fun (parts, st') =>
        .ok ((depth, data.length, parts), st')
    else
      (fromBlobLeafLoop n st 0 (chunkList LHKEY_SEGMENT_MAX_LENGTH data)).bind
        fun (parts, st') => .ok ((depth, data.length, parts), st')
termination_by structural fuel

/-- The recursive-segment loop of `from_blob` (`data.len() > LHKEY_LEVEL_MAX_LENGTH`). -/
def fromBlobBigLoop (fuel : Nat) (st : St) (seg : Nat) (index : Nat) (chunks : List Str) : RunResult (List Part × St) :=
  match fuel with
  | 0 => .diverge
  | n + 1 =>
    match chunks with
    | [] => .ok ([], st)
    | c :: rest => do
      let start := index * seg
      let (node, st') ← fromBlob n st c
      let ((h, k), st'') ← lheStoreF n st' node
      let (t, st3) ← fromBlobBigLoop n st'' seg (index + 1) rest
      pure ((start, start + c.length, Hkey.longHkey h k) :: t, st3)
termination_by structural fuel

/-- The leaf loop of `from_blob` (`data.len() ≤ LHKEY_LEVEL_MAX_LENGTH`). -/
def fromBlobLeafLoop (fuel : Nat) (st : St) (index : Nat) (chunks : List Str) : RunResult (List Part × St) :=
  match fuel with
  | 0 => .diverge
  | n + 1 =>
    match chunks with
    | [] => .ok ([], st)
    | c :: rest => do
      let start := index * LHKEY_SEGMENT_MAX_LENGTH
      let (hk, st') ← put n st c
      let (t, st'') ← fromBlobLeafLoop n st' (index + 1) rest
      pure ((start, start + c.length, hk) :: t, st'')
termination_by structural fuel

/-- `LongHkeyExpanded::store` (methods/store.rs): serialize the node text,
`store.put` it, and require the result to be `Encrypted` (whose pair
becomes the `LongHkey`); any other variant is a `StorageError`. -/
def lheStoreF (fuel : Nat) (st : St) (node : LHEc) : RunResult ((Nat × Nat) × St) :=
  match fuel with
  | 0 => .diverge
  | n + 1 => do
    let (d, sz, parts) := node
    let (hk, st') ← put n st (format (.lhe d sz parts))
    match hk with
    | .encrypted h k => pure ((h, k), st')
    | _ => .err .storageError
termination_by structural fuel

/-- `Hkey::shrink_or_not` (src/lib.rs): oversized `Raw`/`Base64` are stored
and shrunk again; a `List` is stored as its text and must come back
`Encrypted` (re-tagged `ListRef`); a `LongHkeyExpanded` is stored as a
`LongHkey`; every other variant is already small (`None`). -/
def shrinkOrNotF (fuel : Nat) (st : St) (hk : Hkey) : RunResult (Option Hkey × St) :=
  match fuel with
  | 0 => .diverge
  | n + 1 =>
    match hk with
    | .raw d =>
      if d.length ≤ MAX_SIZE_RAW then .ok (none, st)
      else do
        let (h1, st') ← put n st d
        let (h2, st'') ← shrinkF n st' h1
        pure (some h2, st'')
    | .base64 t =>
      if t.length ≤ MAX_SIZE_BASE64 then .ok (none, st)
      else do
        let (h1, st') ← put n st (b64decode t)
        let (h2, st'') ← shrinkF n st' h1
        pure (some h2, st'')
    | .list items => do
      let (stored, st') ← put n st (formatList items)
      match stored with
      | .encrypted h k => pure (some (.listRef h k), st')
      | _ => .err .encryptedIntoListRefError
    | .lhe d sz ps => do
      let ((h, k), st') ← lheStoreF n st (d, sz, ps)
      pure (some (.longHkey h k), st')
    | _ => .ok (none, st)
termination_by structural fuel

/-- `Hkey::shrink` / `shrink_into` (src/lib.rs): `shrink_or_not`, keeping
the original when it returns `None`. -/
def shrinkF (fuel : Nat) (st : St) (hk : Hkey) : RunResult (Hkey × St) :=
  match fuel with
  | 0 => .diverge
  | n + 1 => do
    let (o, st') ← shrinkOrNotF n st hk
    pure (o.getD hk, st')
termination_by structural fuel

/-- `Hkey::compact` (src/methods/compact.rs): shrink, then emit the binary
form per variant (`Encrypted` tag 0, `ListRef`/`LongHkey` tag 1); other
variants shrink once more and recurse. -/
def compactF (fuel : Nat) (st : St) (hk : Hkey) : RunResult (Str × St) :=
  match fuel with
  | 0 => .diverge
  | n + 1 => do
    let (shr, st') ← shrinkF n st hk
    match shr with
    | .raw v => pure (v, st')
    | .base64 v => pure (b64decode v, st')
    | .direct h => pure (compactOfHash h, st')
    | .encrypted h k => pure (compactDhash h k 0, st')
    | .listRef h k => pure (compactDhash h k 1, st')
    | .longHkey h k => pure (compactDhash h k 1, st')
    | other => do
      let (s2, st'') ← shrinkF n st' other
      compactF n st'' s2
termination_by structural fuel

/-- `LongHkeyExpanded::update` (methods/update/mod.rs): canonicalize the
range to `start..min(end, start + data.len())`, take the new depth as
`calculate_depth(self.depth, range.end)`, delegate depth 0 to
`update_flat`, otherwise rebuild each depth-sized segment (re-wrapped when
untouched, recursively updated when it meets the range). -/
def updateF (fuel : Nat) (st : St) (self : LHEc) (data : Str) (rs : Nat) (re : Nat) : RunResult (LHEc × St) :=
  match fuel with
  | 0 => .diverge
  | n + 1 =>
    let re' := min re (rs + data.length)
    let length := max re' self.2.1
    let depth := calculateDepth self.1 re'
    let seg := calculateSegmentLength depth
    if depth = 0 then updateFlatF n st self data rs re'
    else
      (updateLoopF n st self data rs re' depth seg length
          (List.range (natCeilDiv length seg))).bind fun (parts, st') =>
        .ok ((depth, length, parts), st')
termination_by structural fuel

/-- The segment loop of `update` (depth ≥ 1): normalize each segment to
depth − 1, re-store untouched segments, recursively update touched ones
with the matching slice of `data`, and wrap every child as a `LongHkey`. -/
def updateLoopF (fuel : Nat) (st : St) (self : LHEc) (data : Str) (rs : Nat) (re : Nat) (depth : Nat) (seg : Nat) (length : Nat) (indices : List Nat) : RunResult (List Part × St) :=
  match fuel with
  | 0 => .diverge
  | n + 1 =>
    match indices with
    | [] => .ok ([], st)
    | i :: rest => do
      let start := i * seg
      let stop := min ((i + 1) * seg) length
      let (segment, st') ←
        normalizeSegmentF n st self (depth - 1) (min start self.2.1) (min stop self.2.1)
      if start ≥ re ∨ stop ≤ rs then do
        let ((h, k), st'') ← lheStoreF n st' segment
        let (t, st3) ← updateLoopF n st'' self data rs re depth seg length rest
        pure ((start, stop, Hkey.longHkey h k) :: t, st3)
      else
        let offs := max start rs
        let offe := min stop re
        match sliceGet data (offs - rs) (offe - rs) with
        | none => .crash
        | some dataSlice => do
          let (segment', st'') ← updateF n st' segment dataSlice offs offe
          let ((h, k), st3) ← lheStoreF n st'' segment'
          let (t, st4) ← updateLoopF n st3 self data rs re depth seg length rest
          pure ((start, stop, Hkey.longHkey h k) :: t, st4)
termination_by structural fuel

/-- `LongHkeyExpanded::update_flat` (methods/update/mod.rs): truncate the
write to `min(data.len(), range width)`, rebuild every
`LHKEY_SEGMENT_MAX_LENGTH` leaf up to `new_size = range.end.max(self.size)`,
and assemble the node — whose `size` field the source sets to the write
`length` (not `new_size`). -/
def updateFlatF (fuel : Nat) (st : St) (self : LHEc) (data : Str) (rs : Nat) (re : Nat) : RunResult (LHEc × St) :=
  match fuel with
  | 0 => .diverge
  | n + 1 =>
    if re < rs then .crash
    else
      let length := min data.length (re - rs)
      let re2 := rs + length
      let data' := data.take length
      let newSize := max re2 self.2.1
      (updateFlatLoopF n st self data' rs re2 newSize
          (List.range (natCeilDiv newSize LHKEY_SEGMENT_MAX_LENGTH))).bind
        fun (parts, st') => .ok ((0, length, parts), st')

/-- The per-leaf loop of `update_flat`: the source's five cases — part
outside the range (reuse the matching part or re-store the resolved
bytes), part inside the range, range inside the part (splice), part
straddling the range start (old prefix then new bytes), and part
straddling the range end (new bytes, then the source's
`resolve_slice(orig_start..part_end)` with the part-local `orig_start`
used as an absolute position). -/
def updateFlatLoopF (fuel : Nat) (st : St) (self : LHEc) (data : Str) (rs : Nat) (re : Nat) (newSize : Nat) (indices : List Nat) : RunResult (List Part × St) :=
  match fuel with
  | 0 => .diverge
  | n + 1 =>
    match indices with
    | [] => .ok ([], st)
    | i :: rest => do
      let partStart := i * LHKEY_SEGMENT_MAX_LENGTH
      let partEnd := min ((i + 1) * LHKEY_SEGMENT_MAX_LENGTH) newSize
      let (pt, st') ←
        if re ≤ partStart ∨ rs ≥ partEnd then
          match self.2.2.get? i with
          | some (s, e, hk) =>
            if s = partStart ∧ e = partEnd then pure ((s, e, hk), st)
            else do
              let slice ← lhePartsSlice n st self.2.2 partStart partEnd
              let (hk', st') ← put n st slice
              pure ((partStart, partEnd, hk'), st')
          | none => do
            let slice ← lhePartsSlice n st self.2.2 partStart partEnd
            let (hk', st') ← put n st slice
            pure ((partStart, partEnd, hk'), st')
        else if partStart ≥ rs ∧ partEnd ≤ re then
          match sliceGet data (partStart - rs) (partEnd - rs) with
          | none => .crash
          | some slice => do
            let (hk', st') ← put n st slice
            pure ((partStart, partEnd, hk'), st')
        else if rs ≥ partStart ∧ re ≤ partEnd then do
          let original ← lhePartsSlice n st self.2.2 partStart partEnd
          let dataStart := rs - partStart
          let dataEnd := dataStart + data.length
          let origStart := min dataEnd original.length
          match sliceGet original 0 dataStart with
          | none => .crash
          | some pre => do
            let (hk', st') ← put n st (pre ++ data ++ original.drop origStart)
            pure ((partStart, partEnd, hk'), st')
        else if rs > partStart then do
          let original ← lhePartsSlice n st self.2.2 partStart rs
          match sliceGet data 0 (partEnd - rs) with
          | none => .crash
          | some slice => do
            let (hk', st') ← put n st (original ++ slice)
            pure ((partStart, partEnd, hk'), st')
        else if partStart ≥ rs then
          let dataStart := partStart - rs
          if data.length < dataStart then .crash
          else
            let origStart := data.length - dataStart
            do
              let original ← lhePartsSlice n st self.2.2 origStart partEnd
              let (hk', st') ← put n st (data.drop dataStart ++ original)
              pure ((partStart, partEnd, hk'), st')
        else .err .unreachableCodeReached
      let (t, st'') ← updateFlatLoopF n st' self data rs re newSize rest
      pure (pt :: t, st'')
termination_by structural fuel

/-- `LongHkeyExpanded::normalize_segment` (methods/normalize_segment.rs):
an empty range yields the default node; an exactly matching stored part is
reused; otherwise the sub-range is resolved and rebuilt as leaves (depth
0, one or several) or as recursively normalized depth-sized children. -/
def normalizeSegmentF (fuel : Nat) (st : St) (self : LHEc) (depth : Nat) (rs : Nat) (re : Nat) : RunResult (LHEc × St) :=
  match fuel with
  | 0 => .diverge
  | n + 1 =>
    if re = rs then .ok ((0, 0, []), st)
    else
      match normSegFind st rs re self.2.2 with
      | some r => do
        let node ← r
        pure (node, st)
      | none =>
        if re < rs then .crash
        else
          let length := re - rs
          let depth' := calculateDepth depth length
          if depth' = 0 ∧ length ≤ LHKEY_SEGMENT_MAX_LENGTH then do
            let data ← lhePartsSlice n st self.2.2 rs re
            let (hk, st') ← put n st data
            pure ((0, data.length, [(0, length, hk)]), st')
          else if depth' = 0 then
            (normSegLoop0F n st self rs re
                (List.range (natCeilDiv length LHKEY_SEGMENT_MAX_LENGTH))).bind
              fun (parts, st') => .ok ((1, length, parts), st')
          else
            let seg := calculateSegmentLength depth'
            (normSegLoopDF n st self depth' seg rs re
                (List.range (natCeilDiv length seg))).bind
              fun (parts, st') => .ok ((depth', length, parts), st')
termination_by structural fuel

/-- The depth-0 multi-leaf loop of `normalize_segment`. -/
def normSegLoop0F (fuel : Nat) (st : St) (self : LHEc) (rs : Nat) (re : Nat) (indices : List Nat) : RunResult (List Part × St) :=
  match fuel with
  | 0 => .diverge
  | n + 1 =>
    match indices with
    | [] => .ok ([], st)
    | i :: rest => do
      let bgn := rs + i * LHKEY_SEGMENT_MAX_LENGTH
      let stop := min re (rs + (i + 1) * LHKEY_SEGMENT_MAX_LENGTH)
      let data ← lhePartsSlice n st self.2.2 bgn stop
      let (hk, st') ← put n st data
      let (t, st'') ← normSegLoop0F n st' self rs re rest
      pure ((i * LHKEY_SEGMENT_MAX_LENGTH, (i + 1) * LHKEY_SEGMENT_MAX_LENGTH, hk) :: t, st'')
termination_by structural fuel

/-- The recursive loop of `normalize_segment` (depth ≥ 1). -/
def normSegLoopDF (fuel : Nat) (st : St) (self : LHEc) (depth : Nat) (seg : Nat) (rs : Nat) (re : Nat) (indices : List Nat) : RunResult (List Part × St) :=
  match fuel with
  | 0 => .diverge
  | n + 1 =>
    match indices with
    | [] => .ok ([], st)
    | i :: rest => do
      let bgn := rs + i * seg
      let stop := min re (rs + (i + 1) * seg)
      let (child, st') ← normalizeSegmentF n st self (depth - 1) bgn stop
      let ((h, k), st'') ← lheStoreF n st' child
      let (t, st3) ← normSegLoopDF n st'' self depth seg rs re rest
      pure ((i * seg, (i + 1) * seg, Hkey.longHkey h k) :: t, st3)
termination_by structural fuel

end

/-! ## Concrete inputs used by the claim theorems -/

/-- `format ∘ parse`: one canonicalization round on a textual input. -/
def formatOfParse (s : Str) : RunResult Str :=
  (parse s).bind fun hk => .ok (format hk)

/-- `resolve(put(b))`: the store/resolve round trip of the triage pipeline,
resolving against the store state `put` produced. -/
def resolveOfPut (fuel : Nat) (st : St) (b : Str) : RunResult Str :=
  (put fuel st b).bind fun (hk, st') => resolve fuel st' hk

/-- A depth-0 node of logical size 2 holding the bytes `[1, 2]` in one
part, the pre-state of the update-locality counterexample. -/
def nodeC2 : LHEc := (0, 2, [(0, 2, Hkey.raw [1, 2])])

/-- The spec's canonical base64 example text `"BSGVsbG8"`. -/
def sB64 : Str := [66, 83, 71, 86, 115, 98, 71, 56]

/-- The textual empty expanded form `"{0;0;}"`. -/
def emptyLheText : Str := [chLBrace, 48, chSemi, 48, chSemi, chRBrace]

/-- The first (full) leaf chunk of the store/resolve counterexample:
4096 zero bytes. -/
def c0C1 : Str := List.replicate 4096 0

/-- The store/resolve counterexample input: 4097 bytes, so the triage
takes the `from_blob` path and the one-byte tail becomes a `Raw` leaf. -/
def bC1 : Str := c0C1 ++ [5]

/-- The content hash of the stored ciphertext of the first leaf. -/
def H0 : Nat := hashOfData (encryptData c0C1)

/-- The key hash of the first leaf. -/
def K0 : Nat := keyOf c0C1

/-- The store after the first leaf is put. -/
def st1C1 : St := [(H0, encryptData c0C1)]

/-- The parts `from_blob` builds for `bC1`. -/
def partsC1 : List Part := [(0, 4096, Hkey.encrypted H0 K0), (4096, 4097, Hkey.raw [5])]

/-- The serialized text of the second range entry, `"4096-4096:BBQ"`
(the `Raw [5]` leaf prints as `"BBQ"`). -/
def entry2C1 : Str := [52, 48, 57, 54, 45, 52, 48, 57, 54, 58, 66, 66, 81]

/-- The textual Hkey of the first leaf inside the node text,
`"E" + hash + key`. -/
def hkey1C1 : Str := chE :: (textOfHash H0 ++ textOfHash K0)

/-- The serialized text of the first range entry, `"0-4095:" + hkey1C1`. -/
def entry1C1 : Str := [48, 45, 52, 48, 57, 53] ++ (chColon :: hkey1C1)

/-- The interior of the serialized node text:
`"0;4097;" + entry1C1 + "," + entry2C1`. -/
def innerTextC1 : Str :=
  [48] ++ (chSemi :: ([52, 48, 57, 55] ++ (chSemi :: (entry1C1 ++ (chComma :: entry2C1)))))

/-- The serialized text of the node `(0, 4097, partsC1)`
(shown below to equal its `Display` output). -/
def nodeTextC1 : Str := chLBrace :: (innerTextC1 ++ [chRBrace])

/-- The content hash of the stored ciphertext of the node text. -/
def H1 : Nat := hashOfData (encryptData nodeTextC1)

/-- The key hash of the node text. -/
def K1 : Nat := keyOf nodeTextC1

/-- The store after the node text is put. -/
def st2C1 : St := (H1, encryptData nodeTextC1) :: st1C1

/-- The parts recovered by re-parsing the node text: the `Raw` leaf comes
back as `Base64("BBQ")` because `try_parse` does not strip the `'B'`. -/
def partsC1' : List Part :=
  [(0, 4096, Hkey.encrypted H0 K0), (4096, 4097, Hkey.base64 [66, 66, 81])]

/-- A separator byte occurs nowhere in the string. -/
def sepFree (sep : Nat) (l : Str) : Prop := ∀ c ∈ l, c ≠ sep

/-- Membership in a concrete byte string is decidable, so `sepFree` is. -/
instance (sep : Nat) (l : Str) : Decidable (sepFree sep l) :=
  inferInstanceAs (Decidable (∀ c ∈ l, c ≠ sep))

/-- The plaintext of a self-referential `ListRef`: the text
`"L" + hash + key` for the digest pair `(0, 0)`. -/
def cycText : Str := chL :: textOfHash 0 ++ textOfHash 0

/-- A byzantine store holding, at digest `0`, a well-formed ciphertext
whose plaintext is `cycText` — a `ListRef` that decrypts to itself. -/
def stCyc : St := [(0, CTAG :: cycText)]

end PsHkey

namespace PsHkey

/-! ## Helper lemmas -/

/-- `calculate_depth` never returns less than its `min` argument. -/
theorem calcDepth_ge (mn e : Nat) : mn ≤ calculateDepth mn e := by
  unfold calculateDepth
  split
  · exact le_refl mn
  · exact le_max_left _ _

/-- The level capacity at depth `d` is `2 ^ (16 + 4 d)`. -/
theorem level_capacity (d : Nat) :
    LHKEY_LEVEL_MAX_LENGTH * LHKEY_PART_COUNT ^ d = 2 ^ (16 + 4 * d) := by
  show 65536 * 16 ^ d = 2 ^ (16 + 4 * d)
  rw [pow_add, show (65536 : Nat) = 2 ^ 16 from rfl,
    show (16 : Nat) = 2 ^ 4 from rfl, ← pow_mul]

/-- `calculate_depth mn e` satisfies the capacity bound `e ≤ 2^(16+4d)`. -/
theorem calcDepth_capacity (mn e : Nat) : e ≤ 2 ^ (16 + 4 * calculateDepth mn e) := by
  unfold calculateDepth
  split
  · rename_i hle
    calc e ≤ 65536 := hle
    _ = 2 ^ 16 := rfl
    _ ≤ 2 ^ (16 + 4 * mn) := Nat.pow_le_pow_right (by omega) (by omega)
  · rename_i hgt
    push_neg at hgt
    have hgt' : 65536 < e := hgt
    have h1 : e - 1 < 2 ^ (Nat.log 2 (e - 1) + 1) := Nat.lt_pow_succ_log_self (by omega) _
    rw [Nat.log2_eq_log_two]
    set L := Nat.log 2 (e - 1) + 1 with hL
    have he : e ≤ 2 ^ L := by omega
    have hderived : L ≤ 16 + 4 * natCeilDiv (L - LHKEY_LEVEL_MAX_LENGTH_LOG2) LHKEY_PART_COUNT_LOG2 := by
      show L ≤ 16 + 4 * ((L - 16 + 4 - 1) / 4)
      omega
    calc e ≤ 2 ^ L := he
    _ ≤ 2 ^ (16 + 4 * max mn (natCeilDiv (L - LHKEY_LEVEL_MAX_LENGTH_LOG2) LHKEY_PART_COUNT_LOG2)) := by
        refine Nat.pow_le_pow_right (by omega) ?_
        have := le_max_right mn (natCeilDiv (L - LHKEY_LEVEL_MAX_LENGTH_LOG2) LHKEY_PART_COUNT_LOG2)
        omega

/-- `calculate_depth mn e` is the least depth `≥ mn` meeting the bound. -/
theorem calcDepth_min (mn e d : Nat) (hmn : mn ≤ d) (hcap : e ≤ 2 ^ (16 + 4 * d)) :
    calculateDepth mn e ≤ d := by
  unfold calculateDepth
  split
  · exact hmn
  · rename_i hgt
    push_neg at hgt
    have hgt' : 65536 < e := hgt
    rw [Nat.log2_eq_log_two]
    refine max_le hmn ?_
    by_contra hcon
    push_neg at hcon
    set L := Nat.log 2 (e - 1) + 1 with hL
    have hcon' : L - 16 ≥ 4 * d + 1 := by
      have : natCeilDiv (L - LHKEY_LEVEL_MAX_LENGTH_LOG2) LHKEY_PART_COUNT_LOG2 ≥ d + 1 := hcon
      have h4 : (L - 16 + 4 - 1) / 4 ≥ d + 1 := this
      omega
    have hlow : 2 ^ (L - 1) ≤ e - 1 := by
      have hple := Nat.pow_log_le_self 2 (show e - 1 ≠ 0 by omega)
      have hL1 : L - 1 = Nat.log 2 (e - 1) := by omega
      rw [hL1]
      exact hple
    have hmono : 2 ^ (16 + 4 * d) ≤ 2 ^ (L - 1) := Nat.pow_le_pow_right (by omega) (by omega)
    omega

/-- A successful `update_flat` always returns a depth-0 node. -/
theorem updateFlat_depth_zero (fuel : Nat) (st : St) (self : LHEc) (data : Str)
    (rs re : Nat) (nd : LHEc) (st' : St)
    (h : updateFlatF fuel st self data rs re = .ok (nd, st')) : nd.1 = 0 := by
  match fuel with
  | 0 => simp [updateFlatF] at h
  | n + 1 =>
    unfold updateFlatF at h
    simp only at h
    split at h
    · exact absurd h (by simp)
    · rcases hloop : updateFlatLoopF n st self
          (data.take (min data.length (re - rs))) rs (rs + min data.length (re - rs))
          (max (rs + min data.length (re - rs)) self.2.1)
          (List.range (natCeilDiv (max (rs + min data.length (re - rs)) self.2.1)
            LHKEY_SEGMENT_MAX_LENGTH)) with
        (⟨parts, st2⟩ | e | _ | _) <;> rw [hloop] at h <;>
        simp [RunResult.bind] at h
      exact h.1 ▸ rfl

/-- `validate_bin` accepts the two-byte-header compact shape and recovers
the digest, ignoring the tag bit. -/
theorem validateBin_shape (b0 x : Nat) (hb : b0 ≤ 1) :
    validateBin (b0 :: x :: List.replicate 46 0) = some x := by
  have step : validateBin (b0 :: x :: List.replicate 46 0) =
      if b0 ≤ 1 ∧ List.replicate 46 (0 : Nat) = List.replicate (HASH_SIZE_COMPACT - 2) 0
      then some x else none := rfl
  rw [step, if_pos ⟨hb, rfl⟩]

/-- `from_compact` inverts `compact_dhash` for both tag values. -/
theorem fromCompact_dhash (h k : Nat) :
    fromCompact (compactDhash h k 0) = .ok (.encrypted h k) ∧
    fromCompact (compactDhash h k 1) = .ok (.listRef h k) := by
  have e0 : compactDhash h k 0 =
      0 :: h :: (List.replicate 46 0 ++ 0 :: k :: List.replicate 46 0) := rfl
  have e1 : compactDhash h k 1 =
      1 :: h :: (List.replicate 46 0 ++ 0 :: k :: List.replicate 46 0) := rfl
  have ht : ∀ b0 : Nat, List.take HASH_SIZE_COMPACT
      (b0 :: h :: (List.replicate 46 0 ++ 0 :: k :: List.replicate 46 0)) =
      b0 :: h :: List.replicate 46 0 := fun _ => rfl
  have hd : ∀ b0 : Nat, List.drop HASH_SIZE_COMPACT
      (b0 :: h :: (List.replicate 46 0 ++ 0 :: k :: List.replicate 46 0)) =
      0 :: k :: List.replicate 46 0 := fun _ => rfl
  have hlen : ∀ b0 : Nat,
      (b0 :: h :: (List.replicate 46 0 ++ 0 :: k :: List.replicate 46 0)).length = 96 :=
    fun _ => rfl
  constructor
  · rw [e0]
    unfold fromCompact
    rw [hlen, if_neg (by decide), if_pos (by decide), ht, hd,
      validateBin_shape 0 h (by decide), validateBin_shape 0 k (by decide)]
    simp only [List.headI]
    rw [if_pos (by decide)]
  · rw [e1]
    unfold fromCompact
    rw [hlen, if_neg (by decide), if_pos (by decide), ht, hd,
      validateBin_shape 1 h (by decide), validateBin_shape 0 k (by decide)]
    simp only [List.headI]
    rw [if_neg (by decide)]

/-! ## Toolbox for the store/resolve round trip: splitting, hashing,
serialization, and the step-by-step evaluation of `put` and `resolve` on
the 4097-byte counterexample blob `bC1`. Every recursive-cluster step is
stated with symbolic fuel `m + k` so the equations hold at every
sufficient fuel. -/

theorem splitOn_cons (sep c : Nat) (l : Str) :
    splitOn sep (c :: l) =
      if c = sep then [] :: splitOn sep l
      else
        match splitOn sep l with
        | h :: t => (c :: h) :: t
        | [] => [[c]] := rfl

theorem splitOn_ne_nil (sep : Nat) (l : Str) : splitOn sep l ≠ [] := by
  induction l with
  | nil => simp [splitOn]
  | cons c t ih =>
    rw [splitOn_cons]
    by_cases hc : c = sep
    · simp [hc]
    · rw [if_neg hc]
      cases hsp : splitOn sep t with
      | nil => simp
      | cons h t' => simp

theorem sepFree_cons {sep c : Nat} {l : Str} (hc : c ≠ sep) (hl : sepFree sep l) :
    sepFree sep (c :: l) := by
  intro x hx
  rcases List.mem_cons.mp hx with h | h
  · exact h ▸ hc
  · exact hl x h

theorem sepFree_append {sep : Nat} {a b : Str} (ha : sepFree sep a) (hb : sepFree sep b) :
    sepFree sep (a ++ b) := by
  intro x hx
  rcases List.mem_append.mp hx with h | h
  · exact ha x h
  · exact hb x h

theorem sepFree_head {sep c : Nat} {l : Str} (h : sepFree sep (c :: l)) : c ≠ sep :=
  h c (List.mem_cons_self c l)

theorem sepFree_tail {sep c : Nat} {l : Str} (h : sepFree sep (c :: l)) : sepFree sep l :=
  fun x hx => h x (List.mem_cons_of_mem c hx)

theorem splitOn_sepFree (sep : Nat) (xs : Str) (h : sepFree sep xs) : splitOn sep xs = [xs] := by
  induction xs with
  | nil => rfl
  | cons c t ih =>
    rw [splitOn_cons, if_neg (sepFree_head h), ih (sepFree_tail h)]

theorem splitOn_append_sep (sep : Nat) (xs l : Str) (h : sepFree sep xs) :
    splitOn sep (xs ++ sep :: l) = xs :: splitOn sep l := by
  induction xs with
  | nil => rw [List.nil_append, splitOn_cons, if_pos rfl]
  | cons c t ih =>
    rw [List.cons_append, splitOn_cons, if_neg (sepFree_head h), ih (sepFree_tail h)]

theorem splitOnce_append_sep (sep : Nat) (xs l : Str) (h : sepFree sep xs) :
    splitOnce sep (xs ++ sep :: l) = some (xs, l) := by
  induction xs with
  | nil => rw [List.nil_append]; simp [splitOnce]
  | cons c t ih =>
    rw [List.cons_append]
    simp only [splitOnce]
    rw [if_neg (sepFree_head h), ih (sepFree_tail h)]

theorem hash_foldl_bounds (d : Str) : ∀ acc : Nat,
    acc * 257 ^ d.length ≤ d.foldl (fun a b => a * 257 + b % 256 + 1) acc ∧
    d.foldl (fun a b => a * 257 + b % 256 + 1) acc < (acc + 1) * 257 ^ d.length := by
  induction d with
  | nil => intro acc; simp
  | cons b t ih =>
    intro acc
    rw [List.foldl_cons, List.length_cons]
    have hb : b % 256 < 256 := Nat.mod_lt _ (by norm_num)
    have h1 := ih (acc * 257 + b % 256 + 1)
    constructor
    · refine le_trans ?_ h1.1
      have hle : acc * 257 ≤ acc * 257 + b % 256 + 1 := by omega
      calc acc * 257 ^ (t.length + 1) = acc * 257 * 257 ^ t.length := by ring
        _ ≤ (acc * 257 + b % 256 + 1) * 257 ^ t.length := Nat.mul_le_mul hle le_rfl
    · refine lt_of_lt_of_le h1.2 ?_
      have hle : acc * 257 + b % 256 + 1 + 1 ≤ (acc + 1) * 257 := by
        have h257 : (acc + 1) * 257 = acc * 257 + 257 := by ring
        omega
      calc (acc * 257 + b % 256 + 1 + 1) * 257 ^ t.length
          ≤ (acc + 1) * 257 * 257 ^ t.length := Nat.mul_le_mul hle le_rfl
        _ = (acc + 1) * 257 ^ (t.length + 1) := by ring

theorem hashOfData_bounds (d : Str) :
    257 ^ d.length ≤ hashOfData d ∧ hashOfData d < 2 * 257 ^ d.length := by
  have h := hash_foldl_bounds d 1
  rw [hashOfData]
  constructor
  · simpa using h.1
  · simpa using h.2

theorem hashOfData_lt_of_length_lt {d1 d2 : Str} (h : d1.length < d2.length) :
    hashOfData d1 < hashOfData d2 := by
  have h1 := (hashOfData_bounds d1).2
  have h2 := (hashOfData_bounds d2).1
  have hp : 2 * 257 ^ d1.length ≤ 257 ^ d2.length := by
    calc 2 * 257 ^ d1.length ≤ 257 * 257 ^ d1.length :=
        Nat.mul_le_mul (by norm_num) le_rfl
      _ = 257 ^ (d1.length + 1) := by ring
      _ ≤ 257 ^ d2.length := Nat.pow_le_pow_right (by norm_num) h
  omega

theorem lookup_cons_self (a : Nat) (b : Str) (t : List (Nat × Str)) :
    List.lookup a ((a, b) :: t) = some b := by
  simp [List.lookup]

theorem lookup_cons_ne {a k : Nat} (b : Str) (t : List (Nat × Str)) (h : a ≠ k) :
    List.lookup a ((k, b) :: t) = List.lookup a t := by
  have hbeq : (a == k) = false := beq_eq_false_iff_ne.mpr h
  simp [List.lookup, hbeq]

theorem textOfHash_length (x : Nat) : (textOfHash x).length = HASH_SIZE := by
  simp [textOfHash, HASH_SIZE]

theorem parseHashText_textOfHash (x : Nat) : parseHashText (textOfHash x) = some x := by
  simp [parseHashText, textOfHash, Nat.le_add_right]

theorem sepFree_textOfHash (x sep : Nat) (h : sep < 1000) : sepFree sep (textOfHash x) := by
  intro c hc
  simp only [textOfHash, List.mem_cons, List.mem_replicate] at hc
  rcases hc with hc | hc
  · omega
  · omega

theorem isUtf8_append (a b : Str) : isUtf8 (a ++ b) = (isUtf8 a && isUtf8 b) := by
  simp [isUtf8]

theorem isUtf8_cons (c : Nat) (l : Str) :
    isUtf8 (c :: l) = ((decide (c < 128) || decide (1000 ≤ c)) && isUtf8 l) := by
  simp [isUtf8]

theorem isUtf8_textOfHash (x : Nat) : isUtf8 (textOfHash x) = true := by
  rw [isUtf8, List.all_eq_true]
  intro c hc
  simp only [textOfHash, List.mem_cons, List.mem_replicate] at hc
  simp only [Bool.or_eq_true, decide_eq_true_eq]
  rcases hc with hc | hc
  · right; omega
  · right; omega

theorem getLastI_cons_concat (a c : Nat) (l : Str) :
    (a :: (l ++ [c])).getLastI = c := by
  rw [List.getLastI_eq_getLast?, show a :: (l ++ [c]) = (a :: l) ++ [c] from rfl,
    List.getLast?_append]
  rfl

theorem c0C1_cons : c0C1 = 0 :: List.replicate 4095 0 := by
  rw [c0C1, show (4096 : Nat) = 4095 + 1 from rfl, List.replicate_succ]

theorem c0C1_length : c0C1.length = 4096 := by
  rw [c0C1, List.length_replicate]

theorem bC1_length : bC1.length = 4097 := by
  rw [bC1, List.length_append, c0C1_length]
  rfl

theorem cypherValidate_c0C1 : cypherValidate c0C1 = false := by
  rw [cypherValidate, c0C1_cons]
  decide

theorem cypherValidate_bC1 : cypherValidate bC1 = false := by
  rw [cypherValidate, bC1, c0C1_cons, List.cons_append]
  decide

theorem c1_put_5 (m : Nat) (st : St) : put (m + 1) st [5] = .ok (.raw [5], st) := by
  simp only [put]
  rw [if_pos (by decide)]

/-! ### The serialized node text and the `put` pipeline on `bC1` -/

theorem bindOk {α β : Type} (a : α) (f : α → RunResult β) :
    Bind.bind (RunResult.ok a) f = f a := rfl

theorem pureOk {α : Type} (a : α) : (pure a : RunResult α) = RunResult.ok a := rfl

theorem innerTextC1_length : innerTextC1.length = 157 := by
  simp [innerTextC1, entry1C1, entry2C1, hkey1C1, textOfHash_length, HASH_SIZE]

theorem nodeTextC1_length : nodeTextC1.length = 159 := by
  simp [nodeTextC1, List.length_append, innerTextC1_length]

theorem formatNode_eq : format (.lhe 0 4097 partsC1) = nodeTextC1 := by
  have d0 : natDigits 0 = [48] := rfl
  have d4095 : natDigits 4095 = [52, 48, 57, 53] := rfl
  have d4095' : natDigits (4096 - 1) = [52, 48, 57, 53] := rfl
  have d4096 : natDigits 4096 = [52, 48, 57, 54] := rfl
  have d4096' : natDigits (4097 - 1) = [52, 48, 57, 54] := rfl
  have d4097 : natDigits 4097 = [52, 48, 57, 55] := rfl
  have b5 : b64encode [5] = [66, 81] := rfl
  simp only [partsC1, format, formatParts, d0, d4095, d4095', d4096, d4096', d4097, b5]
  simp [nodeTextC1, innerTextC1, entry1C1, entry2C1, hkey1C1, chB, chE, chSemi, chColon,
    chComma, chDash, chLBrace, chRBrace]

theorem cypherValidate_nodeTextC1 : cypherValidate nodeTextC1 = false := by
  rw [cypherValidate, nodeTextC1]
  decide

theorem c1_put_c0 (m : Nat) (st : St) :
    put (m + 1) st c0C1 = .ok (.encrypted H0 K0, (H0, encryptData c0C1) :: st) := by
  simp only [put]
  rw [if_neg (by rw [c0C1_length]; decide),
    if_neg (fun h => absurd h.2 (by simp [cypherValidate_c0C1])),
    if_pos (by rw [c0C1_length]; decide)]
  rfl

theorem c1_put_node (m : Nat) (st : St) :
    put (m + 1) st nodeTextC1 = .ok (.encrypted H1 K1, (H1, encryptData nodeTextC1) :: st) := by
  simp only [put]
  rw [if_neg (by rw [nodeTextC1_length]; decide),
    if_neg (fun h => absurd h.2 (by simp [cypherValidate_nodeTextC1])),
    if_pos (by rw [nodeTextC1_length]; decide)]
  rfl

theorem chunkListF_step (k m : Nat) (l : Str) (h : l ≠ []) :
    chunkListF k (m + 1) l = l.take k :: chunkListF k m (l.drop k) := by
  simp [chunkListF, h]

theorem chunkListF_nil (k m : Nat) : chunkListF k (m + 1) [] = [] := by
  simp [chunkListF]

theorem chunkList_bC1 : chunkList LHKEY_SEGMENT_MAX_LENGTH bC1 = [c0C1, [5]] := by
  have hc0seg : c0C1.length = LHKEY_SEGMENT_MAX_LENGTH := by rw [c0C1_length]; rfl
  rw [chunkList, bC1_length]
  rw [chunkListF_step _ _ _ (by rw [bC1]; simp)]
  rw [show bC1 = c0C1 ++ [5] from rfl, List.take_left' hc0seg, List.drop_left' hc0seg]
  rw [show (4097 : Nat) = 4096 + 1 from rfl]
  rw [chunkListF_step _ _ _ (by simp)]
  rw [List.take_of_length_le (by decide), List.drop_eq_nil_of_le (by decide)]
  rw [show (4096 : Nat) = 4095 + 1 from rfl, chunkListF_nil]

theorem c1_leafLoop (m : Nat) :
    fromBlobLeafLoop (m + 3) [] 0 [c0C1, [5]] = .ok (partsC1, st1C1) := by
  simp only [fromBlobLeafLoop]
  simp only [c1_put_c0, c1_put_5, bindOk]
  rw [c0C1_length]
  rfl

theorem c1_fromBlob (m : Nat) :
    fromBlob (m + 4) [] bC1 = .ok ((0, 4097, partsC1), st1C1) := by
  simp only [fromBlob]
  rw [bC1_length]
  rw [if_neg (by decide)]
  rw [chunkList_bC1, c1_leafLoop m, RunResult.bind_ok]
  rfl

theorem c1_lheStore (m : Nat) :
    lheStoreF (m + 2) st1C1 (0, 4097, partsC1) = .ok ((H1, K1), st2C1) := by
  simp only [lheStoreF]
  rw [formatNode_eq]
  simp only [c1_put_node, bindOk]
  rfl

theorem c1_put_bC1 (m : Nat) :
    put (m + 5) [] bC1 = .ok (.longHkey H1 K1, st2C1) := by
  simp only [put]
  rw [if_neg (by rw [bC1_length]; decide),
    if_neg (fun h => absurd h.2 (by simp [cypherValidate_bC1])),
    if_neg (by rw [bC1_length]; decide)]
  rw [c1_fromBlob m]
  simp only [bindOk]
  simp only [c1_lheStore, bindOk]
  rfl

/-! ### Re-expanding the stored node text and resolving it -/

theorem c1_H1_lt_H0 : H1 < H0 := by
  rw [H0, H1]
  apply hashOfData_lt_of_length_lt
  simp [encryptData, nodeTextC1_length, c0C1_length]

theorem c1_H0_ne_H1 : H0 ≠ H1 := by
  have := c1_H1_lt_H0
  omega

theorem c1_get_H0 : storeGet st2C1 H0 = .ok (encryptData c0C1) := by
  rw [storeGet, st2C1, lookup_cons_ne _ _ c1_H0_ne_H1, st1C1, lookup_cons_self]

theorem c1_get_H1 : storeGet st2C1 H1 = .ok (encryptData nodeTextC1) := by
  rw [storeGet, st2C1, lookup_cons_self]

theorem decrypt_encrypt (x : Str) (k : Nat) : decryptData (encryptData x) k = .ok x := rfl

theorem c1_sepFree_hkey1 (sep : Nat) (hs : sep < 1000) (hE : sep ≠ chE) :
    sepFree sep hkey1C1 := by
  rw [hkey1C1]
  exact sepFree_cons (Ne.symm hE)
    (sepFree_append (sepFree_textOfHash _ _ hs) (sepFree_textOfHash _ _ hs))

theorem c1_sepFree_entry1 (sep : Nat) (hs : sep < 1000)
    (hpre : sepFree sep [48, 45, 52, 48, 57, 53]) (hcolon : sep ≠ chColon) (hE : sep ≠ chE) :
    sepFree sep entry1C1 := by
  rw [entry1C1]
  exact sepFree_append hpre (sepFree_cons (Ne.symm hcolon) (c1_sepFree_hkey1 sep hs hE))

theorem c1_splitSemi :
    splitOn chSemi innerTextC1 = [[48], [52, 48, 57, 55], entry1C1 ++ chComma :: entry2C1] := by
  have hfree : sepFree chSemi (entry1C1 ++ chComma :: entry2C1) :=
    sepFree_append (c1_sepFree_entry1 chSemi (by decide) (by decide) (by decide) (by decide))
      (sepFree_cons (by decide) (by decide))
  rw [innerTextC1]
  rw [splitOn_append_sep _ _ _ (by decide)]
  rw [splitOn_append_sep _ _ _ (by decide)]
  rw [splitOn_sepFree _ _ hfree]

theorem c1_splitComma :
    splitOn chComma (entry1C1 ++ chComma :: entry2C1) = [entry1C1, entry2C1] := by
  rw [splitOn_append_sep _ _ _
    (c1_sepFree_entry1 chComma (by decide) (by decide) (by decide) (by decide))]
  rw [splitOn_sepFree _ _ (by decide)]

theorem hkey1C1_length : hkey1C1.length = 129 := by
  simp [hkey1C1, textOfHash_length, HASH_SIZE]

theorem c1_tryParseEnc (a b : Nat) :
    tryParseEncrypted (textOfHash a ++ textOfHash b) = .ok (a, b) := by
  have hlen : (textOfHash a ++ textOfHash b).length = 128 := by
    simp [List.length_append, textOfHash_length, HASH_SIZE]
  rw [tryParseEncrypted]
  rw [if_neg (by rw [hlen]; decide)]
  rw [List.take_left' (textOfHash_length a), List.drop_left' (textOfHash_length a)]
  rw [parseHashText_textOfHash, parseHashText_textOfHash]

theorem c1_tryAsEnc (a b : Nat) :
    tryAsEncrypted (textOfHash a ++ textOfHash b) = .ok (.encrypted a b) := by
  simp only [tryAsEncrypted, c1_tryParseEnc, bindOk]
  rfl

theorem c1_parse_hkey1 (m : Nat) : parseF (m + 2) hkey1C1 = .ok (.encrypted H0 K0) := by
  have htry : tryParseF (m + 1) hkey1C1 = .ok (.encrypted H0 K0) := by
    simp only [tryParseF]
    rw [if_neg (by rw [hkey1C1]; simp),
      if_neg (by rw [hkey1C1_length]; decide),
      if_neg (by rw [hkey1C1_length]; decide),
      if_neg (fun h => absurd h.2 (by rw [hkey1C1_length]; decide)),
      if_pos ⟨rfl, by rw [hkey1C1_length]; rfl⟩]
    rw [show hkey1C1.drop 1 = textOfHash H0 ++ textOfHash K0 from rfl]
    exact c1_tryAsEnc H0 K0
  simp only [parseF, htry]

theorem c1_parse_b64 (m : Nat) : parseF (m + 2) [66, 66, 81] = .ok (.base64 [66, 66, 81]) := rfl

theorem c1_parseEntries (m : Nat) :
    parseEntriesF (m + 4) [entry1C1, entry2C1] = .ok partsC1' := by
  have hsp1 : splitOnce chColon entry1C1 = some ([48, 45, 52, 48, 57, 53], hkey1C1) := by
    rw [entry1C1]
    exact splitOnce_append_sep _ _ _ (by decide)
  have hsp1d : splitOnce chDash [48, 45, 52, 48, 57, 53] = some ([48], [52, 48, 57, 53]) := rfl
  have hsp2 : splitOnce chColon entry2C1 =
      some ([52, 48, 57, 54, 45, 52, 48, 57, 54], [66, 66, 81]) := rfl
  have hsp2d : splitOnce chDash [52, 48, 57, 54, 45, 52, 48, 57, 54] =
      some ([52, 48, 57, 54], [52, 48, 57, 54]) := rfl
  have hp0 : parseNat [48] = some 0 := rfl
  have hp4095 : parseNat [52, 48, 57, 53] = some 4095 := rfl
  have hp4096 : parseNat [52, 48, 57, 54] = some 4096 := rfl
  simp only [parseEntriesF, hsp1, hsp1d, hsp2, hsp2d, hp0, hp4095, hp4096, optErr,
    c1_parse_hkey1, c1_parse_b64, bindOk]
  rfl

theorem isUtf8_innerTextC1 : isUtf8 innerTextC1 = true := by
  simp only [innerTextC1, entry1C1, entry2C1, hkey1C1, isUtf8_append, isUtf8_cons,
    isUtf8_textOfHash, Bool.and_true, Bool.true_and]
  decide

theorem c1_expand (m : Nat) :
    expandFromLhkeyStrF (m + 5) nodeTextC1 = .ok ((0, 4097, partsC1')) := by
  have hh : nodeTextC1.headI = chLBrace := rfl
  have hl : nodeTextC1.getLastI = chRBrace := by
    rw [nodeTextC1]
    exact getLastI_cons_concat _ _ _
  have hp0 : parseNat [48] = some 0 := rfl
  have hp4097 : parseNat [52, 48, 57, 55] = some 4097 := rfl
  simp only [expandFromLhkeyStrF]
  rw [if_neg (by rw [nodeTextC1_length]; decide)]
  rw [if_neg (fun h => h.elim (fun h1 => h1 hh) (fun h2 => h2 hl))]
  rw [show nodeTextC1.drop 1 = innerTextC1 ++ [chRBrace] from rfl, nodeTextC1_length]
  rw [show (159 : Nat) - 2 = 157 from rfl]
  rw [List.take_left' innerTextC1_length]
  rw [if_neg (by simp [isUtf8_innerTextC1])]
  rw [c1_splitSemi]
  simp only [hp0, hp4097, optErr, bindOk]
  rw [c1_splitComma, c1_parseEntries m]
  rfl

theorem c1_expand_full : expandFromLhkeyStr nodeTextC1 = .ok ((0, 4097, partsC1')) := by
  rw [expandFromLhkeyStr, parseFuel, nodeTextC1_length]
  rw [show 4 * 159 + 16 = 647 + 5 from rfl]
  exact c1_expand 647

theorem c1_lhkeyExpand : lhkeyExpand st2C1 H1 K1 = .ok ((0, 4097, partsC1')) := by
  simp only [lhkeyExpand, c1_get_H1, bindOk, decrypt_encrypt]
  exact c1_expand_full

theorem c1_resolve_enc (m : Nat) : resolve (m + 1) st2C1 (.encrypted H0 K0) = .ok c0C1 := by
  simp only [resolve, c1_get_H0, bindOk]
  exact decrypt_encrypt c0C1 K0

theorem c1_sliceGet_c0 : sliceGet c0C1 0 4096 = some c0C1 := by
  rw [sliceGet, if_pos ⟨by omega, le_of_eq c0C1_length.symm⟩]
  rw [List.drop_zero, show (4096 : Nat) - 0 = 4096 from rfl, c0C1, List.take_replicate,
    Nat.min_self]

theorem c1_resolveSlice_enc (m : Nat) :
    resolveSlice (m + 2) st2C1 (.encrypted H0 K0) 0 4096 = .ok c0C1 := by
  simp only [resolveSlice, c1_resolve_enc, bindOk, c1_sliceGet_c0]
  rfl

theorem c1_resolveSlice_b64 (m : Nat) :
    resolveSlice (m + 2) st2C1 (.base64 [66, 66, 81]) 0 1 = .ok [4] := rfl

theorem c1_partsSlice (m : Nat) :
    lhePartsSlice (m + 4) st2C1 partsC1' 0 4097 = .ok (c0C1 ++ [4]) := by
  simp only [partsC1', lhePartsSlice]
  norm_num
  simp only [c1_resolveSlice_enc, c1_resolveSlice_b64, bindOk]
  simp [pureOk, bindOk]

theorem c1_resolve_long (m : Nat) :
    resolve (m + 5) st2C1 (.longHkey H1 K1) = .ok (c0C1 ++ [4]) := by
  simp only [resolve, c1_lhkeyExpand, bindOk]
  exact c1_partsSlice m

/-! ## Claim theorems -/

/-- C1: the claim says `resolve(put(b)) == b` for every byte sequence `b`
against a well-formed store. On the embedded code, putting the 4097-byte
blob `bC1` (4096 zero bytes then `5`) stores the one-byte tail chunk as
the inline `Raw [5]`; the `LongHkeyExpanded` node text prints that leaf as
`"BBQ"` (`'B'` + base64), and re-parsing the stored node text keeps the
`'B'` (`try_parse` has no `'B'` arm), so resolving the returned `LongHkey`
base64-decodes the whole `"BBQ"` and yields 4096 zero bytes then `4`:
the round trip silently corrupts the final byte. -/
theorem c1_store_resolve_roundtrip_broken (n : Nat) :
    resolveOfPut (n + 20) [] bC1 = .ok (c0C1 ++ [4]) ∧ c0C1 ++ [4] ≠ bC1 := by
  constructor
  · rw [resolveOfPut]
    simp only [c1_put_bC1, RunResult.bind_ok]
    simp only [c1_resolve_long]
  · intro h
    rw [bC1] at h
    exact absurd (List.append_cancel_left h) (by decide)

/-- C2: the claim says `resolve(update(h, d, r))` equals
`splice(resolve(h), d, r)` and that the updated node's logical size is
`max(canonicalized r.end, old size)`. On the embedded code, updating the
two-byte node `nodeC2` with one byte at `0..1` yields a node whose parts
hold the correctly spliced bytes `[7, 2]` over `0..2` but whose `size`
field is the write length `1` (the `Self::new(0, length, …)` of
`update_flat`), not `max(1, 2) = 2`; resolving the updated node therefore
returns only `[7]`, not the spliced `[7, 2]`. -/
theorem c2_update_size_is_write_length (n : Nat) (st : St) :
    updateF (n + 9) st nodeC2 [7] 0 1 = .ok ((0, 1, [(0, 2, Hkey.raw [7, 2])]), st) ∧
    resolve (n + 9) st (.lhe 0 1 [(0, 2, Hkey.raw [7, 2])]) = .ok [7] ∧
    max 1 nodeC2.2.1 = 2 ∧ ([7] : Str) ≠ [7, 2] := by
  refine ⟨rfl, rfl, rfl, by decide⟩

/-- C3: the claim says `resolve_slice(h, r)` equals `resolve(h)[r]` for
in-range `r` on every variant including `List`. On the embedded code,
slicing the in-range `0..1` out of `List([Raw [1, 2]])` panics (the
source's `skip = len.max(to_skip)` and `take = (len - skip).max(to_take)`
produce the reversed slice `data[2..1]`), while resolving the same list
yields `[1, 2]`, whose `0..1` slice is the well-defined `[1]`. -/
theorem c3_list_slice_panics (n : Nat) (st : St) :
    resolveSlice (n + 3) st (.list [.raw [1, 2]]) 0 1 = .crash ∧
    resolve (n + 3) st (.list [.raw [1, 2]]) = .ok [1, 2] ∧
    ([1, 2] : Str).take 1 = [1] := by
  refine ⟨rfl, rfl, rfl⟩

/-- C4: the claim says parsing is total (never fails or panics) and that
`try_parse` errors only for `'D'`/`'E'`/`'L'`/`'['`/`'{'`-prefixed forms.
On the embedded code, `Hkey::parse` of the single byte `"["` panics:
`try_as_list` computes the slice `&list[1..0]` before its bracket check.
Moreover `try_parse` also errors on an unprefixed input: 64 `'!'` bytes
hit the `(_, HASH_SIZE)` arm and fail digest validation. -/
theorem c4_parse_crashes_on_lone_bracket :
    parse [chLBracket] = .crash ∧
    tryParse (List.replicate HASH_SIZE 33) = .err .hashError := by
  refine ⟨rfl, by rfl⟩

/-- C5: the claim says `format ∘ parse` reaches a fixed point after exactly
one round, with `Direct`/`Encrypted`/`ListRef` text kept byte-for-byte and
base64 spellings re-canonicalized. On the embedded code, `try_parse` has
no `'B'` arm, so the canonical text `"BSGVsbG8"` parses as
`Base64("BSGVsbG8")` — prefix included — and every `format ∘ parse` round
prepends one more `'B'`: the first round yields `"BBSGVsbG8"`, the second
`"BBBSGVsbG8"`, so one round is not a fixed point (this also contradicts
the crate's own `try_parse`/canonicalization tests). -/
theorem c5_parse_keeps_the_b_prefix :
    formatOfParse sB64 = .ok (chB :: sB64) ∧
    formatOfParse (chB :: sB64) = .ok (chB :: chB :: sB64) ∧
    chB :: chB :: sB64 ≠ chB :: sB64 := by
  refine ⟨rfl, rfl, by decide⟩

/-- C9: the claim says `expand_from_lhkey_str("{0;0;}")` succeeds with the
empty node. On the embedded code the empty node prints as `"{0;0;}"`, but
parsing that text back fails with `FormatError`: the empty third field
splits into one empty range entry, which has no `':'`. -/
theorem c9_empty_expanded_text_rejected :
    format (.lhe 0 0 []) = emptyLheText ∧
    expandFromLhkeyStr emptyLheText = .err .formatError := by
  refine ⟨rfl, rfl⟩

/-- C6: the binary round trip. For every digest pair and every canonical
`Raw` (length at most `MAX_SIZE_RAW`), `from_compact ∘ compact` restores
`Raw`, `Direct`, `Encrypted` and `ListRef` exactly, and restores a
`LongHkey` as a `ListRef` with the same `(hash, key)`; the emitted double
form carries the tag in the low bit of byte 0 (`0` for `Encrypted`, `1`
for `ListRef`/`LongHkey`), which `from_compact` extracts before digest
validation. -/
theorem c6_compact_roundtrip (n : Nat) (st : St) (h k : Nat) (v : Str)
    (hv : v.length ≤ MAX_SIZE_RAW) :
    (compactF (n + 3) st (.raw v) = .ok (v, st) ∧ fromCompact v = .ok (.raw v)) ∧
    (compactF (n + 3) st (.direct h) = .ok (compactOfHash h, st) ∧
      fromCompact (compactOfHash h) = .ok (.direct h)) ∧
    (compactF (n + 3) st (.encrypted h k) = .ok (compactDhash h k 0, st) ∧
      fromCompact (compactDhash h k 0) = .ok (.encrypted h k)) ∧
    (compactF (n + 3) st (.listRef h k) = .ok (compactDhash h k 1, st) ∧
      fromCompact (compactDhash h k 1) = .ok (.listRef h k)) ∧
    (compactF (n + 3) st (.longHkey h k) = .ok (compactDhash h k 1, st) ∧
      fromCompact (compactDhash h k 1) = .ok (.listRef h k)) ∧
    (compactDhash h k 0).headI = 0 ∧ (compactDhash h k 1).headI = 1 := by
  have h47 : v.length ≤ 47 := hv
  refine ⟨⟨?_, ?_⟩, ⟨rfl, rfl⟩, ⟨rfl, (fromCompact_dhash h k).1⟩,
    ⟨rfl, (fromCompact_dhash h k).2⟩, ⟨rfl, (fromCompact_dhash h k).2⟩, rfl, rfl⟩
  · have h1 : shrinkOrNotF (n + 1) st (.raw v) = .ok (none, st) := by
      simp only [shrinkOrNotF]
      rw [if_pos hv]
    simp only [compactF, shrinkF, h1]
    rfl
  · have hne1 : ¬v.length = HASH_SIZE_COMPACT := by
      simp only [HASH_SIZE_COMPACT]; omega
    have hne2 : ¬v.length = DOUBLE_HASH_SIZE_COMPACT := by
      simp only [DOUBLE_HASH_SIZE_COMPACT, HASH_SIZE_COMPACT]; omega
    unfold fromCompact
    rw [if_neg hne1, if_neg hne2]

/-- C6 witness: the round trip evaluated at a concrete small `Raw`. -/
theorem c6_compact_roundtrip_witness :
    ([1, 2, 3] : Str).length ≤ MAX_SIZE_RAW ∧
    compactF 3 [] (.raw [1, 2, 3]) = .ok ([1, 2, 3], []) ∧
    fromCompact ([1, 2, 3] : Str) = .ok (.raw [1, 2, 3]) :=
  ⟨by decide, (c6_compact_roundtrip 0 [] 5 9 [1, 2, 3] (by decide)).1.1,
    (c6_compact_roundtrip 0 [] 5 9 [1, 2, 3] (by decide)).1.2⟩

/-- C7: the `Store::put` triage is exactly by size, in order: inputs of
length at most `MAX_SIZE_RAW` (the bound is inclusive) return `Raw` with
the store untouched; longer inputs up to `MAX_ENCRYPTED_SIZE` that
validate as ciphertext are stored and returned as `Direct`; longer inputs
up to `MAX_DECRYPTED_SIZE` that do not take the `Direct` branch are
encrypted and returned as `Encrypted`; everything larger goes through
`from_blob` then `shrink`. -/
theorem c7_put_triage (n : Nat) (st : St) (data : Str) :
    (data.length ≤ MAX_SIZE_RAW → put (n + 1) st data = .ok (.raw data, st)) ∧
    (MAX_SIZE_RAW < data.length → data.length ≤ MAX_ENCRYPTED_SIZE →
      cypherValidate data →
      put (n + 1) st data = .ok (.direct (hashOfData data), putEncrypted st data)) ∧
    (MAX_SIZE_RAW < data.length → data.length ≤ MAX_DECRYPTED_SIZE →
      ¬cypherValidate data →
      put (n + 1) st data = .ok (.encrypted (hashOfData (encryptData data)) (keyOf data),
        putEncrypted st (encryptData data))) ∧
    (MAX_DECRYPTED_SIZE < data.length →
      ¬(data.length ≤ MAX_ENCRYPTED_SIZE ∧ cypherValidate data) →
      put (n + 1) st data = (do
        let (node, st') ← fromBlob n st data
        let ((h, k), st'') ← lheStoreF n st' node
        pure (.longHkey h k, st''))) := by
  refine ⟨?_, ?_, ?_, ?_⟩
  · intro h1
    simp only [put]
    rw [if_pos h1]
  · intro h1 h2 h3
    simp only [put]
    rw [if_neg (by omega), if_pos ⟨h2, h3⟩]
  · intro h1 h2 h3
    simp only [put]
    rw [if_neg (by omega), if_neg (by simp [h3]), if_pos h2]
  · intro h1 h2
    simp only [put]
    rw [if_neg (by simp only [MAX_SIZE_RAW, HASH_SIZE_COMPACT,
        MAX_DECRYPTED_SIZE] at *; omega),
      if_neg h2, if_neg (by simp only [MAX_DECRYPTED_SIZE] at *; omega)]

/-- C7 witness: the four branches at concrete inputs — empty input,
a 48-byte valid ciphertext, 48 non-ciphertext bytes, and 4097 bytes. -/
theorem c7_put_triage_witness :
    put 1 [] [] = .ok (.raw [], []) ∧
    put 1 [] (CTAG :: List.replicate 47 0) =
      .ok (.direct (hashOfData (CTAG :: List.replicate 47 0)),
        putEncrypted [] (CTAG :: List.replicate 47 0)) ∧
    put 1 [] (List.replicate 48 0) =
      .ok (.encrypted (hashOfData (encryptData (List.replicate 48 0)))
          (keyOf (List.replicate 48 0)),
        putEncrypted [] (encryptData (List.replicate 48 0))) ∧
    put 1 [] (List.replicate 4097 0) = (do
      let (node, st') ← fromBlob 0 [] (List.replicate 4097 0)
      let ((h, k), st'') ← lheStoreF 0 st' node
      pure (.longHkey h k, st'')) :=
  ⟨(c7_put_triage 0 [] []).1 (by decide),
    (c7_put_triage 0 [] (CTAG :: List.replicate 47 0)).2.1 (by decide)
      (by decide) (by decide),
    (c7_put_triage 0 [] (List.replicate 48 0)).2.2.1 (by decide)
      (by decide) (by decide),
    (c7_put_triage 0 [] (List.replicate 4097 0)).2.2.2
      (by rw [List.length_replicate]; decide)
      (by rw [List.length_replicate]; decide)⟩

/-- C8: `calculate_depth(min, size)` returns the smallest depth `d ≥ min`
with `size ≤ LHKEY_LEVEL_MAX_LENGTH · 16^d` (first conjunct: lower bound,
capacity, and minimality), and a successful `update` never returns a node
whose depth is below the pre-update depth (second conjunct). -/
theorem c8_depth_minimal_and_monotone :
    (∀ mn sz : Nat, mn ≤ calculateDepth mn sz ∧
      sz ≤ LHKEY_LEVEL_MAX_LENGTH * LHKEY_PART_COUNT ^ calculateDepth mn sz ∧
      ∀ d : Nat, mn ≤ d → sz ≤ LHKEY_LEVEL_MAX_LENGTH * LHKEY_PART_COUNT ^ d →
        calculateDepth mn sz ≤ d) ∧
    (∀ (fuel : Nat) (st : St) (self : LHEc) (data : Str) (rs re : Nat)
      (nd : LHEc) (st' : St),
      updateF fuel st self data rs re = .ok (nd, st') → self.1 ≤ nd.1) := by
  constructor
  · intro mn sz
    refine ⟨calcDepth_ge mn sz, ?_, ?_⟩
    · rw [level_capacity]
      exact calcDepth_capacity mn sz
    · intro d h1 h2
      rw [level_capacity] at h2
      exact calcDepth_min mn sz d h1 h2
  · intro fuel st self data rs re nd st' h
    match fuel with
    | 0 => simp [updateF] at h
    | m + 1 =>
      unfold updateF at h
      simp only at h
      split at h
      · rename_i hdep
        have hz := updateFlat_depth_zero m st self data rs
          (min re (rs + data.length)) nd st' h
        have hge := calcDepth_ge self.1 (min re (rs + data.length))
        omega
      · rename_i hdep
        rcases hloop : updateLoopF m st self data rs (min re (rs + data.length))
            (calculateDepth self.1 (min re (rs + data.length)))
            (calculateSegmentLength (calculateDepth self.1 (min re (rs + data.length))))
            (max (min re (rs + data.length)) self.2.1)
            (List.range (natCeilDiv (max (min re (rs + data.length)) self.2.1)
              (calculateSegmentLength
                (calculateDepth self.1 (min re (rs + data.length)))))) with
          (⟨parts, st2⟩ | e | _ | _) <;> rw [hloop] at h <;>
          simp only [RunResult.bind, RunResult.ok.injEq, Prod.mk.injEq,
            reduceCtorEq] at h
        obtain ⟨h1, h2⟩ := h
        rw [← h1]
        exact calcDepth_ge _ _

/-- C8 witness: minimality evaluated at `min 0`, `size 100000` (depth 1),
and depth monotonicity at a successful concrete empty update. -/
theorem c8_depth_witness :
    calculateDepth 0 100000 ≤ 1 ∧ (((0, 0, []) : LHEc)).1 ≤ (((0, 0, []) : LHEc)).1 :=
  ⟨(c8_depth_minimal_and_monotone.1 0 100000).2.2 1 (by decide) (by decide),
    c8_depth_minimal_and_monotone.2 5 [] (0, 0, []) [] 0 0 (0, 0, []) [] (by rfl)⟩

set_option maxRecDepth 40000 in
/-- C10: the claim says resolution imposes a depth limit (around 64) on
nested `ListRef` indirections, returning a `Format` error on a
self-referential `ListRef`. On the embedded code there is no limit:
against the byzantine store `stCyc`, whose chunk at digest `0` decrypts to
the text of `ListRef(0, 0)` itself, `resolve` exhausts every fuel bound
(the recursion of `resolve_list_ref` never terminates and no error is
produced). -/
theorem c10_cyclic_list_ref_diverges :
    ∀ n : Nat, resolve n stCyc (.listRef 0 0) = .diverge := by
  intro n
  induction n with
  | zero => rfl
  | succ m ih =>
    have step : resolve (m + 1) stCyc (.listRef 0 0) = resolve m stCyc (.listRef 0 0) := rfl
    rw [step, ih]

end PsHkey
